import Mathlib

/-!
Verification development for the EverQuest trade-log inventory scanner
(`eq_inventory/eqlog_parser.py`).

The embedding models:
- `History` (checkpoint store: `__init__`, `record`);
- the classifier/counter `Inventory.process_trade`, with the word-category
  patterns `_WORD_PATTERNS` implemented as executable matchers on strings;
- the scan loop `Inventory.update` (timestamp cutoff, per-source iteration);
- the tabular merge `Inventory.add_counts_to_csv` (rows as `List String`,
  Python `int()`/`str()` round-tripping modeled by an executable decimal
  codec, Python exceptions modeled with `Except`);
- `Inventory.write_new_trades` and a whole-run function `runInventory`
  acting on an explicit file-system state `World`.

Timestamps are modeled as `Nat` (the `datetime` order embeds into `Nat` for
any finite set of log times; the `datetime(1900, 1, 1)` sentinel is `0` and
real log timestamps are positive).  `get_log_timestamp` and
`check_for_trade_action` parse raw text; a `LogLine` records their results
(an optional parsed timestamp and an optional trade match), which is
exactly the interface the `update` loop consumes.  Python dicts are modeled
as insertion-ordered association lists (`dlookup`, `dincr`, `dremove`,
`pop` = `dremove`); dict keys are unique, which appears as `Nodup`
hypotheses where it matters.
-/

/-! ## Python-dict model: insertion-ordered association lists -/

def dlookup : List (String × Nat) → String → Option Nat
  | [], _ => none
  | (k, v) :: d, key => if k = key then some v else dlookup d key

def dmem (d : List (String × Nat)) (k : String) : Bool :=
  (dlookup d k).isSome

def dGetD (d : List (String × Nat)) (k : String) : Nat :=
  (dlookup d k).getD 0

/-- `d[k] = d[k] + 1` with initialization to `1` if absent
(the two branches at the end of `process_trade`). -/
def dincr : List (String × Nat) → String → List (String × Nat)
  | [], k => [(k, 1)]
  | (k, v) :: d, key => if k = key then (k, v + 1) :: d else (k, v) :: dincr d key

/-- `dict.pop(key)`'s effect on the mapping: remove the entry for `key`. -/
def dremove : List (String × Nat) → String → List (String × Nat)
  | [], _ => []
  | (k, v) :: d, key => if k = key then d else (k, v) :: dremove d key

def dkeys (d : List (String × Nat)) : List String :=
  d.map Prod.fst

def dsum (d : List (String × Nat)) : Nat :=
  (d.map Prod.snd).sum

/-- Python `any(dict)` iterates the keys, testing string truthiness
(non-emptiness): true iff some key is a non-empty string. -/
def pyAnyDict (d : List (String × Nat)) : Bool :=
  d.any (fun p => p.1 != "")

/-! ## Python `str`/`int` on decimal integers (the csv count fields) -/

def toDigitChar (d : Nat) : Char :=
  Char.ofNat (48 + d)

def digitVal (c : Char) : Nat :=
  c.toNat - 48

/-- Decimal digits of `n`, least significant first.  The first argument is
fuel (`n` itself suffices, since `n / 10 < n`); fuel keeps the recursion
structural so that the kernel can evaluate it. -/
def natDigitsRevAux : Nat → Nat → List Char
  | 0, _ => []
  | fuel + 1, n => if n = 0 then [] else toDigitChar (n % 10) :: natDigitsRevAux fuel (n / 10)

/-- Python `str` of a non-negative integer. -/
def pyStrNat (n : Nat) : String :=
  if n = 0 then "0" else ⟨(natDigitsRevAux n n).reverse⟩

/-- Python `str` of an integer (what `csv.writer` writes for the count). -/
def pyStrInt (i : Int) : String :=
  if i < 0 then "-" ++ pyStrNat i.natAbs else pyStrNat i.natAbs

def parseNatChars? (cs : List Char) : Option Nat :=
  if cs = [] then none
  else if cs.all Char.isDigit then some (cs.foldl (fun a c => a * 10 + digitVal c) 0)
  else none

/-- Python `int(s)` on a decimal string: optional leading minus sign, then
decimal digits.  (Python additionally tolerates surrounding whitespace, a
leading `+` and `_` separators; those never occur in the canonical output
of `str`, which is all this program ever writes back.) -/
def pyInt (s : String) : Option Int :=
  match s.data with
  | [] => none
  | c :: rest =>
    if c = '-' then
      match parseNatChars? rest with
      | none => none
      | some m => some (-(m : Int))
    else
      match parseNatChars? (c :: rest) with
      | none => none
      | some m => some ((m : Int))

/-! ## The word-category patterns (`_WORD_PATTERNS`, `re.match` anchored at
the start of the subject name; `\w` is approximated by ASCII alphanumerics
plus underscore). -/

def isWordChar (c : Char) : Bool :=
  c.isAlphanum || c == '_'

/-- Strip a literal prefix from a character list, or fail. -/
def stripLit : List Char → List Char → Option (List Char)
  | [], s => some s
  | _, [] => none
  | l :: ls, c :: cs => if l = c then stripLit ls cs else none

/-- `re.match("LIT\\w+", s)`: the literal, then at least one word char. -/
def litThenWord (lit : String) (s : String) : Bool :=
  match stripLit lit.data s.data with
  | some (c :: _) => isWordChar c
  | _ => false

/-- `re.match("Velishoul's Tome Pg. \\w+", s)`: the `.` in the pattern is an
unescaped regex dot, matching any character except newline. -/
def velishoulTome (s : String) : Bool :=
  match stripLit ("Velishoul\x27s Tome Pg").data s.data with
  | some (c :: ' ' :: d :: _) => (c != '\n') && isWordChar d
  | _ => false

/-- `any(re.match(pattern, item_name) for pattern in _WORD_PATTERNS)`. -/
def matchesWordPattern (s : String) : Bool :=
  litThenWord "Part of Tasarin\x27s Grimoire " s ||
  velishoulTome s ||
  litThenWord "Rune of " s ||
  litThenWord "Spell: " s ||
  litThenWord "Words of " s

/-! ## Data model: trades, log lines, checkpoint history -/

structure Trade where
  player : String
  item : String
deriving DecidableEq, Repr

/-- One line of a scanned log, recorded through the interface the `update`
loop consumes: the result of `get_log_timestamp` (`none` for a line whose
fixed-width prefix does not parse) and the result of
`check_for_trade_action` (`none` when the trade regex does not match). -/
structure LogLine where
  ts : Option Nat
  trade : Option Trade
deriving DecidableEq, Repr

structure History where
  timestamps : List Nat
  actions : List String
deriving DecidableEq, Repr

/-- `History.__init__`: the sentinel entry `datetime(1900, 1, 1)` (modeled
as time `0`, predating every real log timestamp) with an empty action. -/
def History.init : History :=
  ⟨[0], [""]⟩

/-- `History.record`: append the timestamp and the "PLAYER -> ITEM" action. -/
def History.record (h : History) (t : Nat) (tr : Trade) : History :=
  ⟨h.timestamps ++ [t], h.actions ++ [tr.player ++ " -> " ++ tr.item]⟩

/-- `self.history.timestamps[-1]` (the sequence is never empty in the
program; the default covers the model's totality). -/
def histLast (h : History) : Nat :=
  h.timestamps.getLastD 0

/-- The in-memory state of an `Inventory` during one run: the loaded
history plus the two per-run count dicts (`self.words`, `self.items`,
created empty by `__init__`). -/
structure InvState where
  history : History
  words : List (String × Nat)
  items : List (String × Nat)
deriving DecidableEq, Repr

/-- `Inventory.process_trade`: record into history, then classify by
pattern match OR current membership in the words dict, then increment. -/
def processTrade (st : InvState) (t : Nat) (tr : Trade) : InvState :=
  if matchesWordPattern tr.item || dmem st.words tr.item then
    ⟨st.history.record t tr, dincr st.words tr.item, st.items⟩
  else
    ⟨st.history.record t tr, st.words, dincr st.items tr.item⟩

def processTradePair (st : InvState) (e : Nat × Trade) : InvState :=
  processTrade st e.1 e.2

/-! ## The scan loop (`Inventory.update`) -/

/-- One iteration of the line loop in `update`: skip lines without a
timestamp, skip lines at or before the cutoff (`timestamp <=
last_action_time`), process a trade match, and count it. -/
def scanStep (c : Nat) (acc : InvState × Nat) (l : LogLine) : InvState × Nat :=
  match l.ts with
  | none => acc
  | some t =>
    if t ≤ c then acc
    else
      match l.trade with
      | none => acc
      | some tr => (processTrade acc.1 t tr, acc.2 + 1)

/-- The source loop of `update`: a missing log file is skipped with a
diagnostic; an existing one is scanned line by line.  The cutoff `c` is
read once, before any source is scanned. -/
def scanSources (c : Nat) (acc : InvState × Nat) (logs : List (Option (List LogLine))) :
    InvState × Nat :=
  logs.foldl
    (fun a ol =>
      match ol with
      | none => a
      | some lines => lines.foldl (scanStep c) a)
    acc

/-- The scanning part of `Inventory.update` (everything before
`write_new_trades`): returns the updated state and
`num_trades_processed`. -/
def updateScan (st : InvState) (logs : List (Option (List LogLine))) : InvState × Nat :=
  scanSources (histLast st.history) (st, 0) logs

/-! ## The tabular merge (`Inventory.add_counts_to_csv`) -/

inductive MergeErr where
  | valueError
  | indexError
deriving DecidableEq, Repr

/-- `len(row) > max(name_column, count_column)`: the row is wide enough to
read the contracted positions. -/
def wfRow (nc cc : Nat) (r : List String) : Bool :=
  decide (max nc cc < r.length)

/-- The row loop of `add_counts_to_csv`.  A row that is too narrow is
skipped (`continue` — before `writer.writerow`, so it is NOT copied to the
output).  Otherwise, a row whose name-column is a pending key has its
count-column incremented (`str(int(...) + delta)`, a `ValueError` if the
field does not parse) and the key is popped; every such row is written.
Returns the written rows and the still-pending keys. -/
def processRows (nc cc : Nat) :
    List (List String) → List (String × Nat) →
    Except MergeErr (List (List String) × List (String × Nat))
  | [], ds => .ok ([], ds)
  | r :: rs, ds =>
    if wfRow nc cc r then
      match dlookup ds (r.getD nc "") with
      | some d =>
        match pyInt (r.getD cc "") with
        | none => .error .valueError
        | some v =>
          match processRows nc cc rs (dremove ds (r.getD nc "")) with
          | .error e => .error e
          | .ok (o, lf) => .ok (r.set cc (pyStrInt (v + (d : Int))) :: o, lf)
      | none =>
        match processRows nc cc rs ds with
        | .error e => .error e
        | .ok (o, lf) => .ok (r :: o, lf)
    else
      processRows nc cc rs ds

/-- `num_columns`: the running maximum row width over all input rows
(updated before the narrowness check, so narrow rows count too). -/
def maxWidth (rows : List (List String)) : Nat :=
  rows.foldl (fun a r => max a r.length) 0

/-- The append loop of `add_counts_to_csv`: one new row per remaining key,
`[None] * num_columns` with the name and count placed at the contracted
positions (`IndexError` if either position is out of range; `csv.writer`
renders `None` as the empty field and the int count via `str`). -/
def appendNewRows (nc cc numCols : Nat) :
    List (String × Nat) → Except MergeErr (List (List String))
  | [] => .ok []
  | (k, d) :: rest =>
    if nc < numCols ∧ cc < numCols then
      match appendNewRows nc cc numCols rest with
      | .error e => .error e
      | .ok out => .ok ((((List.replicate numCols "").set nc k).set cc (pyStrInt (d : Int))) :: out)
    else .error .indexError

/-- `Inventory.add_counts_to_csv` at the level of row contents: the rows of
the replacement file on success, or the Python exception that aborts the
call (leaving the original file in place, since `os.remove`/`os.rename`
are never reached). -/
def addCountsToCsv (nc cc : Nat) (rows : List (List String)) (ds : List (String × Nat)) :
    Except MergeErr (List (List String)) :=
  match processRows nc cc rows ds with
  | .error e => .error e
  | .ok (o, lf) =>
    match appendNewRows nc cc (maxWidth rows) lf with
    | .error e => .error e
    | .ok apps => .ok (o ++ apps)

/-- The diagnostics of a completed row pass: one warning
(`"... has too few columns - can't read it."`) per too-narrow row, in
encounter order, carrying the joined row text. -/
def mergeWarnings (nc cc : Nat) (rows : List (List String)) : List String :=
  (rows.filter (fun r => !wfRow nc cc r)).map (fun r => String.intercalate "," r)

/-! ## The whole run (`Inventory.__init__` + `update` + `write_new_trades`)
acting on an explicit file-system state -/

/-- The class constants `_word_name_column` etc. -/
def wordNameColumn : Nat := 2
def wordCountColumn : Nat := 3
def itemNameColumn : Nat := 1
def itemCountColumn : Nat := 2

/-- The files a run touches.  `logs` holds, per configured mule name in
order, the log file's parsed lines (`none` = file missing).  `historyFile`
is the checkpoint pickle: `none` = no file (fresh bootstrap), `some none` =
present but corrupt (`pickle.load` raises), `some (some h)` = loads as
`h`. -/
structure World where
  logs : List (Option (List LogLine))
  historyFile : Option (Option History)
  wordsCsv : List (List String)
  itemsCsv : List (List String)
deriving DecidableEq, Repr

/-- The history-loading part of `Inventory.__init__`: a missing pickle
gives a fresh `History` (with a warning); a corrupt one raises out of the
constructor (no fallback). -/
def loadHistory : Option (Option History) → Option History
  | none => some History.init
  | some none => none
  | some (some h) => some h

inductive RunErr where
  | loadFailure
  | mergeFailure (e : MergeErr)
deriving DecidableEq, Repr

/-- The items half of `write_new_trades`: merge `self.items` into the item
inventory csv when `any(self.items)`. -/
def mergeItemsPart (st : InvState) (w : World) : World × Option RunErr :=
  if pyAnyDict st.items then
    match addCountsToCsv itemNameColumn itemCountColumn w.itemsCsv st.items with
    | .error e => (w, some (.mergeFailure e))
    | .ok out => ({ w with itemsCsv := out }, none)
  else (w, none)

/-- `Inventory.write_new_trades`: FIRST pickle the history (advancing the
durable checkpoint), then merge the words counts, then the items counts.
A merge exception propagates after the checkpoint is already persisted. -/
def writeNewTrades (st : InvState) (w : World) : World × Option RunErr :=
  let w1 := { w with historyFile := some (some st.history) }
  if pyAnyDict st.words then
    match addCountsToCsv wordNameColumn wordCountColumn w1.wordsCsv st.words with
    | .error e => (w1, some (.mergeFailure e))
    | .ok out => mergeItemsPart st { w1 with wordsCsv := out }
  else mergeItemsPart st w1

structure RunOutcome where
  world : World
  newTrades : Nat
  err : Option RunErr
deriving DecidableEq, Repr

/-- One full run of the script: construct the `Inventory` (loading the
checkpoint; a corrupt checkpoint aborts before anything is written), scan
all sources against the loaded cutoff, then persist and merge. -/
def runInventory (w : World) : RunOutcome :=
  match loadHistory w.historyFile with
  | none => ⟨w, 0, some .loadFailure⟩
  | some h0 =>
    let sn := updateScan ⟨h0, [], []⟩ w.logs
    let we := writeNewTrades sn.1 w
    ⟨we.1, sn.2, we.2⟩

/-! ## Observers used by the claims -/

/-- The timestamps stored in the on-disk checkpoint. -/
def histFileTs (w : World) : List Nat :=
  match w.historyFile with
  | some (some h) => h.timestamps
  | _ => []

/-- The checkpoint cutoff recorded in the on-disk checkpoint. -/
def histFileLast (w : World) : Nat :=
  match w.historyFile with
  | some (some h) => histLast h
  | _ => 0

/-- All lines a run will look at, in scan order (missing sources skipped). -/
def allLines (logs : List (Option (List LogLine))) : List LogLine :=
  (logs.filterMap id).flatten

/-- The timestamps of the trade-bearing, timestamped lines, in scan
order.  Only these lines can ever create events. -/
def tradeTss (lines : List LogLine) : List Nat :=
  lines.filterMap (fun l =>
    match l.ts, l.trade with
    | some t, some _ => some t
    | _, _ => none)

/-- The events `update` extracts from `lines` against cutoff `c`. -/
def newEvents (c : Nat) (lines : List LogLine) : List (Nat × Trade) :=
  lines.filterMap (fun l =>
    match l.ts, l.trade with
    | some t, some tr => if c < t then some (t, tr) else none
    | _, _ => none)

/-- The subjects of the trade matches among `lines`, in order. -/
def tradeItems (lines : List LogLine) : List String :=
  lines.filterMap (fun l => l.trade.map Trade.item)

/-- The count-column total of a tabular file (rows without a parseable
count field contribute nothing). -/
def csvSum (cc : Nat) (rows : List (List String)) : Int :=
  (rows.map (fun r => (pyInt (r.getD cc "")).getD 0)).sum

/-- The total recorded count of subject `k` in a tabular file: the sum of
the count fields of the readable rows whose name-column is `k`. -/
def keyTotal (nc cc : Nat) (rows : List (List String)) (k : String) : Int :=
  ((rows.filter (fun r => wfRow nc cc r && (r.getD nc "" == k))).map
    (fun r => (pyInt (r.getD cc "")).getD 0)).sum

/-- The grand count total across both tabular inventory files. -/
def csvTotal (w : World) : Int :=
  csvSum wordCountColumn w.wordsCsv + csvSum itemCountColumn w.itemsCsv

/-! ## Derived definitions used in the statements below -/

def itemsOf (evs : List (Nat × Trade)) : List String :=
  evs.map (fun e => e.2.item)

/-- Every subject in the words dict got there through a pattern match:
this is an invariant of every state reachable from a fresh run start. -/
def wordsInv (st : InvState) : Prop :=
  ∀ k, dmem st.words k = true → matchesWordPattern k = true

/-- A readable row that names key `k`. -/
def rowMatches (nc cc : Nat) (k : String) (r : List String) : Bool :=
  wfRow nc cc r && (r.getD nc "" == k)

/-- The appended row for key `k` with count `d`. -/
def appendedRow (nc cc numCols : Nat) (k : String) (d : Nat) : List String :=
  ((List.replicate numCols "").set nc k).set cc (pyStrInt (d : Int))

/-- The rewrite the merge applies to a matched row: count column becomes
`str(int(old) + delta)`. -/
def bumpRow (nc cc : Nat) (ds : List (String × Nat)) (r : List String) : List String :=
  r.set cc (pyStrInt ((pyInt (r.getD cc "")).getD 0 + ((dGetD ds (r.getD nc "") : Nat) : Int)))

/-- Whether row `r` is, at position `i` of the readable rows `w`, the first
readable row bearing its own name. -/
def firstOcc (nc : Nat) (w : List (List String)) (i : Nat) (r : List String) : Bool :=
  !((w.take i).any (fun r2 => r2.getD nc "" == r.getD nc ""))

/-- One run of the classifier/counter alone: a fold of `process_trade`
over timestamped trades from the fresh per-run state `__init__` creates
(empty `words` and `items`). -/
def classifierRun (trades : List (Nat × Trade)) : InvState :=
  trades.foldl processTradePair ⟨History.init, [], []⟩

/-- A single-source configuration (one mule name whose log exists). -/
def singleLogWorld (lines : List LogLine) (hf : Option (Option History))
    (wcsv icsv : List (List String)) : World :=
  ⟨[some lines], hf, wcsv, icsv⟩

/-- The file system after run 1 over a single log. -/
def afterRun1 (lines : List LogLine) (hf : Option (Option History))
    (wcsv icsv : List (List String)) : World :=
  (runInventory (singleLogWorld lines hf wcsv icsv)).world

/-- The file system after run 1, with the lines `A` appended to the log
between the runs. -/
def appendedWorld (lines A : List LogLine) (hf : Option (Option History))
    (wcsv icsv : List (List String)) : World :=
  { afterRun1 lines hf wcsv icsv with logs := [some (lines ++ A)] }

/-- Occurrences of subject `s` among the trade lines of `A`. -/
def occCount (s : String) (A : List LogLine) : Nat :=
  (tradeItems A).count s

/-- Two sources whose time ranges overlap: the first mule's trade (time 2)
is newer than the second mule's (time 1). -/
def c5World : World :=
  ⟨[some [⟨some 2, some ⟨"P", "Ring"⟩⟩], some [⟨some 1, some ⟨"P", "Amulet"⟩⟩]],
    none, [], [["h", "n", "c"]]⟩

/-- One trade, and an item inventory file that is empty, so the merge's
append step must raise `IndexError`. -/
def c7World : World :=
  ⟨[some [⟨some 1, some ⟨"P", "Ring"⟩⟩]], none, [], []⟩

/-- Two sources with out-of-order trade timestamps. -/
def c9World : World :=
  ⟨[some [⟨some 2, some ⟨"P", "Ring"⟩⟩], some [⟨some 1, some ⟨"Q", "Amulet"⟩⟩]],
    none, [], []⟩

/-- A single source whose trade timestamps arrive in increasing order. -/
def c9GoodWorld : World :=
  ⟨[some [⟨some 1, some ⟨"P", "Ring"⟩⟩, ⟨some 2, some ⟨"P", "Amulet"⟩⟩]],
    none, [], [["h", "n", "c"]]⟩

/-- The events one run extracts, given its loaded history. -/
def runEvents (w : World) (h0 : History) : List (Nat × Trade) :=
  newEvents (histLast h0) (allLines w.logs)

/-! ## Lemmas about the dict model -/

theorem dkeys_nil : dkeys [] = [] := rfl

theorem dkeys_cons (p : String × Nat) (d : List (String × Nat)) :
    dkeys (p :: d) = p.1 :: dkeys d := rfl

theorem dlookup_eq_none (d : List (String × Nat)) (k : String)
    (h : k ∉ dkeys d) : dlookup d k = none := by
  induction d with
  | nil => rfl
  | cons a d ih =>
    obtain ⟨ak, av⟩ := a
    rw [dkeys_cons] at h
    have hak : ¬ ak = k := fun hh => h (by simp [hh])
    simp only [dlookup, if_neg hak]
    exact ih (fun hh => h (List.mem_cons_of_mem _ hh))

theorem dGetD_dincr (d : List (String × Nat)) (j k : String) :
    dGetD (dincr d j) k = dGetD d k + (if j = k then 1 else 0) := by
  induction d with
  | nil => by_cases h : j = k <;> simp [dincr, dGetD, dlookup, h]
  | cons a d ih =>
    obtain ⟨ak, av⟩ := a
    by_cases hj : ak = j
    · subst hj
      by_cases hk : ak = k <;> simp [dincr, dGetD, dlookup, hk]
    · have hj2 : ¬ j = ak := fun hh => hj hh.symm
      by_cases hk : ak = k
      · subst hk
        simp [dincr, dGetD, dlookup, hj, hj2]
      · simp only [dincr, if_neg hj, dGetD, dlookup, if_neg hk]
        exact ih

theorem dmem_dincr (d : List (String × Nat)) (j k : String) :
    dmem (dincr d j) k = (decide (j = k) || dmem d k) := by
  induction d with
  | nil => by_cases h : j = k <;> simp [dincr, dmem, dlookup, h]
  | cons a d ih =>
    obtain ⟨ak, av⟩ := a
    by_cases hj : ak = j
    · subst hj
      by_cases hk : ak = k <;> simp [dincr, dmem, dlookup, hk]
    · by_cases hk : ak = k
      · subst hk
        have hj2 : ¬ j = ak := fun hh => hj hh.symm
        simp [dincr, dmem, dlookup, hj, hj2]
      · simp only [dincr, if_neg hj, dmem, dlookup, if_neg hk]
        exact ih

theorem dmem_iff_mem_dkeys (d : List (String × Nat)) (k : String) :
    dmem d k = true ↔ k ∈ dkeys d := by
  induction d with
  | nil => simp [dmem, dlookup, dkeys]
  | cons a d ih =>
    obtain ⟨ak, av⟩ := a
    by_cases hak : ak = k
    · subst hak
      simp [dmem, dlookup, dkeys_cons]
    · have hka : ¬ k = ak := fun hh => hak hh.symm
      rw [dkeys_cons]
      simp only [dmem, dlookup, if_neg hak, List.mem_cons]
      rw [← dmem]
      simp [hka, ih]

theorem dkeys_dincr (d : List (String × Nat)) (j : String) :
    dkeys (dincr d j) = if dmem d j then dkeys d else dkeys d ++ [j] := by
  induction d with
  | nil => simp [dincr, dmem, dlookup, dkeys]
  | cons a d ih =>
    obtain ⟨ak, av⟩ := a
    by_cases hj : ak = j
    · subst hj
      simp [dincr, dmem, dlookup, dkeys_cons]
    · have hdm : dmem ((ak, av) :: d) j = dmem d j := by
        simp [dmem, dlookup, hj]
      simp only [dincr, if_neg hj, dkeys_cons, hdm, ih]
      by_cases hm : dmem d j <;> simp [hm]

theorem dkeys_dincr_nodup (d : List (String × Nat)) (j : String)
    (h : (dkeys d).Nodup) : (dkeys (dincr d j)).Nodup := by
  rw [dkeys_dincr]
  by_cases hm : dmem d j
  · simpa [hm] using h
  · have : j ∉ dkeys d := fun hh => hm ((dmem_iff_mem_dkeys d j).mpr hh)
    simp [hm, List.nodup_append, h, this]

theorem dpos_dincr (d : List (String × Nat)) (j : String)
    (h : ∀ p ∈ d, 1 ≤ p.2) : ∀ p ∈ dincr d j, 1 ≤ p.2 := by
  induction d with
  | nil =>
    intro p hp
    simp only [dincr, List.mem_singleton] at hp
    simp [hp]
  | cons a d ih =>
    obtain ⟨ak, av⟩ := a
    intro p hp
    by_cases hj : ak = j
    · simp only [dincr, if_pos hj, List.mem_cons] at hp
      rcases hp with hp | hp
      · simp [hp]
      · exact h p (List.mem_cons_of_mem _ hp)
    · simp only [dincr, if_neg hj, List.mem_cons] at hp
      rcases hp with hp | hp
      · exact h p (by simp [hp])
      · exact ih (fun q hq => h q (List.mem_cons_of_mem _ hq)) p hp

theorem dsum_dincr (d : List (String × Nat)) (j : String) :
    dsum (dincr d j) = dsum d + 1 := by
  induction d with
  | nil => simp [dincr, dsum]
  | cons a d ih =>
    obtain ⟨ak, av⟩ := a
    by_cases hj : ak = j
    · subst hj
      simp [dincr, dsum]
      omega
    · simp only [dincr, if_neg hj]
      simp [dsum] at ih ⊢
      omega

theorem dmem_iff_pos (d : List (String × Nat)) (k : String)
    (h : ∀ p ∈ d, 1 ≤ p.2) : dmem d k = true ↔ 1 ≤ dGetD d k := by
  induction d with
  | nil => simp [dmem, dGetD, dlookup]
  | cons a d ih =>
    obtain ⟨ak, av⟩ := a
    by_cases hak : ak = k
    · subst hak
      have hpos := h (ak, av) (by simp)
      simp [dmem, dGetD, dlookup]
      exact hpos
    · simp only [dmem, dGetD, dlookup, if_neg hak]
      exact ih (fun q hq => h q (List.mem_cons_of_mem _ hq))

theorem dremove_sublist (d : List (String × Nat)) (k : String) :
    (dremove d k).Sublist d := by
  induction d with
  | nil => simp [dremove]
  | cons a d ih =>
    obtain ⟨ak, av⟩ := a
    by_cases hak : ak = k
    · simp only [dremove, if_pos hak]
      exact (List.sublist_cons_self _ _)
    · simp only [dremove, if_neg hak]
      exact ih.cons₂ _

theorem dkeys_dremove_nodup (d : List (String × Nat)) (k : String)
    (h : (dkeys d).Nodup) : (dkeys (dremove d k)).Nodup :=
  h.sublist ((dremove_sublist d k).map Prod.fst)

theorem dlookup_dremove_ne (d : List (String × Nat)) (j k : String) (hjk : j ≠ k) :
    dlookup (dremove d k) j = dlookup d j := by
  induction d with
  | nil => simp [dremove]
  | cons a d ih =>
    obtain ⟨ak, av⟩ := a
    by_cases hak : ak = k
    · subst hak
      have : ¬ ak = j := fun hh => hjk (hh.symm ▸ rfl)
      simp [dremove, dlookup, this]
    · by_cases haj : ak = j
      · subst haj
        simp [dremove, dlookup, hak]
      · simp [dremove, dlookup, hak, haj, ih]

theorem dlookup_dremove_self (d : List (String × Nat)) (k : String)
    (h : (dkeys d).Nodup) : dlookup (dremove d k) k = none := by
  induction d with
  | nil => simp [dremove, dlookup]
  | cons a d ih =>
    obtain ⟨ak, av⟩ := a
    rw [dkeys_cons, List.nodup_cons] at h
    by_cases hak : ak = k
    · subst hak
      simp only [dremove, if_pos rfl]
      exact dlookup_eq_none d ak h.1
    · simp only [dremove, if_neg hak, dlookup, if_neg hak]
      exact ih h.2

theorem dsum_dremove (d : List (String × Nat)) (k : String) (v : Nat)
    (h : dlookup d k = some v) : dsum d = v + dsum (dremove d k) := by
  induction d with
  | nil => simp [dlookup] at h
  | cons a d ih =>
    obtain ⟨ak, av⟩ := a
    by_cases hak : ak = k
    · rw [dlookup, if_pos hak] at h
      cases h
      simp [dremove, dsum, hak]
    · rw [dlookup, if_neg hak] at h
      simp only [dremove, if_neg hak]
      simp [dsum] at ih ⊢
      rw [ih h]
      omega

theorem dremove_eq_filter (d : List (String × Nat)) (k : String)
    (h : (dkeys d).Nodup) : dremove d k = d.filter (fun p => p.1 != k) := by
  induction d with
  | nil => simp [dremove]
  | cons a d ih =>
    obtain ⟨ak, av⟩ := a
    rw [dkeys_cons, List.nodup_cons] at h
    by_cases hak : ak = k
    · subst hak
      rw [dremove, if_pos rfl, List.filter_cons]
      have hcond : ((ak, av).1 != ak) = false := by simp
      rw [hcond]
      simp only [Bool.false_eq_true, if_false]
      refine (List.filter_eq_self.mpr fun p hp => ?_).symm
      refine bne_iff_ne.mpr (fun hh => h.1 ?_)
      rw [← hh]
      exact List.mem_map.mpr ⟨p, hp, rfl⟩
    · rw [dremove, if_neg hak, List.filter_cons]
      have hcond : ((ak, av).1 != k) = true := bne_iff_ne.mpr hak
      rw [hcond]
      simp only [if_true]
      rw [ih h.2]

theorem pyAnyDict_eq_true (d : List (String × Nat)) (hne : d ≠ [])
    (h : ∀ p ∈ d, p.1 ≠ "") : pyAnyDict d = true := by
  cases d with
  | nil => exact absurd rfl hne
  | cons p d' =>
    simp only [pyAnyDict, List.any_cons, Bool.or_eq_true]
    exact Or.inl (bne_iff_ne.mpr (h p (by simp)))

theorem pyAnyDict_eq_false (d : List (String × Nat))
    (h : ∀ p ∈ d, p.1 ≠ "") (hf : pyAnyDict d = false) : d = [] := by
  cases d with
  | nil => rfl
  | cons p d' =>
    simp only [pyAnyDict, List.any_cons, Bool.or_eq_false_iff] at hf
    exact absurd (bne_iff_ne.mpr (h p (by simp))) (by simp [hf.1])

/-! ## Round-trip of the decimal codec (`int(str(i)) == i`) -/

def valRev : List Char → Nat
  | [] => 0
  | c :: cs => digitVal c + 10 * valRev cs

theorem toDigitChar_isDigit (d : Nat) (h : d < 10) : (toDigitChar d).isDigit = true := by
  interval_cases d <;> decide

theorem digitVal_toDigitChar (d : Nat) (h : d < 10) : digitVal (toDigitChar d) = d := by
  interval_cases d <;> decide

theorem natDigitsRevAux_all_digits :
    ∀ fuel n, n ≤ fuel → ∀ c ∈ natDigitsRevAux fuel n, c.isDigit = true := by
  intro fuel
  induction fuel with
  | zero =>
    intro n hn c hc
    simp [natDigitsRevAux] at hc
  | succ f ih =>
    intro n hn c hc
    by_cases h0 : n = 0
    · simp [natDigitsRevAux, h0] at hc
    · rw [natDigitsRevAux, if_neg h0] at hc
      rcases List.mem_cons.mp hc with hc | hc
      · rw [hc]
        exact toDigitChar_isDigit _ (Nat.mod_lt _ (by norm_num))
      · exact ih (n / 10) (by omega) c hc

theorem natDigitsRevAux_ne_nil (fuel n : Nat) (h0 : n ≠ 0) (hf : fuel ≠ 0) :
    natDigitsRevAux fuel n ≠ [] := by
  cases fuel with
  | zero => exact absurd rfl hf
  | succ f => simp [natDigitsRevAux, h0]

theorem valRev_natDigitsRevAux :
    ∀ fuel n, n ≤ fuel → valRev (natDigitsRevAux fuel n) = n := by
  intro fuel
  induction fuel with
  | zero =>
    intro n hn
    interval_cases n
    simp [natDigitsRevAux, valRev]
  | succ f ih =>
    intro n hn
    by_cases h0 : n = 0
    · simp [natDigitsRevAux, h0, valRev]
    · rw [natDigitsRevAux, if_neg h0, valRev]
      have hdiv : n / 10 ≤ f := by
        have := Nat.div_lt_self (Nat.pos_of_ne_zero h0) (by norm_num : 1 < 10)
        omega
      rw [ih (n / 10) hdiv, digitVal_toDigitChar _ (Nat.mod_lt _ (by norm_num))]
      omega

theorem foldl_reverse_digits (l : List Char) :
    ∀ a : Nat, (l.reverse).foldl (fun x c => x * 10 + digitVal c) a = a * 10 ^ l.length + valRev l := by
  induction l with
  | nil => intro a; simp [valRev]
  | cons c cs ih =>
    intro a
    rw [List.reverse_cons, List.foldl_append]
    simp only [List.foldl_cons, List.foldl_nil]
    rw [ih a, valRev, List.length_cons]
    ring

theorem parseNatChars?_pyStrNat (n : Nat) : parseNatChars? (pyStrNat n).data = some n := by
  by_cases h0 : n = 0
  · subst h0; decide
  · have hne : natDigitsRevAux n n ≠ [] := natDigitsRevAux_ne_nil n n h0 h0
    have hdata : (pyStrNat n).data = (natDigitsRevAux n n).reverse := by
      rw [pyStrNat, if_neg h0]
    rw [hdata, parseNatChars?]
    rw [if_neg (by simpa using hne)]
    have hall : ((natDigitsRevAux n n).reverse).all Char.isDigit = true := by
      rw [List.all_eq_true]
      intro c hc
      exact natDigitsRevAux_all_digits n n (le_refl n) c (List.mem_reverse.mp hc)
    rw [if_pos hall, foldl_reverse_digits, valRev_natDigitsRevAux n n (le_refl n)]
    simp

theorem parseNatChars?_all_digits (cs : List Char) (m : Nat)
    (h : parseNatChars? cs = some m) : ∀ c ∈ cs, c.isDigit = true := by
  rw [parseNatChars?] at h
  split_ifs at h with h1 h2
  · exact fun c hc => (List.all_eq_true.mp h2) c hc

theorem pyInt_data_cons (s : String) (c : Char) (rest : List Char) (h : s.data = c :: rest) :
    pyInt s =
      if c = '-' then
        match parseNatChars? rest with
        | none => none
        | some m => some (-(m : Int))
      else
        match parseNatChars? (c :: rest) with
        | none => none
        | some m => some ((m : Int)) := by
  rw [pyInt, h]

theorem pyInt_pyStrNat (n : Nat) : pyInt (pyStrNat n) = some (n : Int) := by
  have hp := parseNatChars?_pyStrNat n
  cases hd : (pyStrNat n).data with
  | nil => rw [hd] at hp; simp [parseNatChars?] at hp
  | cons c rest =>
    rw [hd] at hp
    have hdig : c.isDigit = true := parseNatChars?_all_digits _ _ hp c (by simp)
    have hcne : ¬ c = '-' := by
      intro hc
      rw [hc] at hdig
      simp [Char.isDigit] at hdig
    rw [pyInt_data_cons _ _ _ hd, if_neg hcne, hp]

theorem pyInt_pyStrInt (i : Int) : pyInt (pyStrInt i) = some i := by
  by_cases hneg : i < 0
  · rw [pyStrInt, if_pos hneg]
    have hdata : ("-" ++ pyStrNat i.natAbs).data = '-' :: (pyStrNat i.natAbs).data := by
      rw [String.data_append]
      rfl
    rw [pyInt_data_cons _ _ _ hdata, if_pos rfl, parseNatChars?_pyStrNat]
    show some (-(i.natAbs : Int)) = some i
    congr 1
    omega
  · rw [pyStrInt, if_neg hneg]
    rw [pyInt_pyStrNat]
    congr 1
    omega

/-! ## Characterizing the scan loop -/

theorem newEvents_nil (c : Nat) : newEvents c [] = [] := rfl

theorem newEvents_append (c : Nat) (a b : List LogLine) :
    newEvents c (a ++ b) = newEvents c a ++ newEvents c b := by
  simp [newEvents]

theorem newEvents_cons_no_ts (c : Nat) (l : LogLine) (ls : List LogLine)
    (h : l.ts = none) : newEvents c (l :: ls) = newEvents c ls := by
  obtain ⟨ts, trade⟩ := l
  simp only at h
  subst h
  rw [newEvents, List.filterMap_cons, ← newEvents]

theorem newEvents_cons_no_trade (c : Nat) (l : LogLine) (ls : List LogLine)
    (h : l.trade = none) : newEvents c (l :: ls) = newEvents c ls := by
  obtain ⟨ts, trade⟩ := l
  simp only at h
  subst h
  cases ts <;> rw [newEvents, List.filterMap_cons, ← newEvents]

theorem newEvents_cons_trade (c t : Nat) (tr : Trade) (l : LogLine) (ls : List LogLine)
    (hts : l.ts = some t) (htr : l.trade = some tr) :
    newEvents c (l :: ls) =
      if c < t then (t, tr) :: newEvents c ls else newEvents c ls := by
  obtain ⟨ts, trade⟩ := l
  simp only at hts htr
  subst hts
  subst htr
  rw [newEvents, List.filterMap_cons, ← newEvents]
  by_cases hc : c < t <;> simp [hc]

theorem tradeTss_nil : tradeTss [] = [] := rfl

theorem tradeTss_cons_no_ts (l : LogLine) (ls : List LogLine)
    (h : l.ts = none) : tradeTss (l :: ls) = tradeTss ls := by
  obtain ⟨ts, trade⟩ := l
  simp only at h
  subst h
  rw [tradeTss, List.filterMap_cons, ← tradeTss]

theorem tradeTss_cons_no_trade (l : LogLine) (ls : List LogLine)
    (h : l.trade = none) : tradeTss (l :: ls) = tradeTss ls := by
  obtain ⟨ts, trade⟩ := l
  simp only at h
  subst h
  cases ts <;> rw [tradeTss, List.filterMap_cons, ← tradeTss]

theorem tradeTss_cons_trade (t : Nat) (tr : Trade) (l : LogLine) (ls : List LogLine)
    (hts : l.ts = some t) (htr : l.trade = some tr) :
    tradeTss (l :: ls) = t :: tradeTss ls := by
  obtain ⟨ts, trade⟩ := l
  simp only at hts htr
  subst hts
  subst htr
  rw [tradeTss, List.filterMap_cons, ← tradeTss]

theorem tradeItems_nil : tradeItems [] = [] := rfl

theorem tradeItems_cons_no_trade (l : LogLine) (ls : List LogLine)
    (h : l.trade = none) : tradeItems (l :: ls) = tradeItems ls := by
  obtain ⟨ts, trade⟩ := l
  simp only at h
  subst h
  rw [tradeItems, List.filterMap_cons, ← tradeItems]
  rfl

theorem tradeItems_cons_trade (tr : Trade) (l : LogLine) (ls : List LogLine)
    (htr : l.trade = some tr) : tradeItems (l :: ls) = tr.item :: tradeItems ls := by
  obtain ⟨ts, trade⟩ := l
  simp only at htr
  subst htr
  rw [tradeItems, List.filterMap_cons, ← tradeItems]
  rfl

theorem processTrade_history (st : InvState) (t : Nat) (tr : Trade) :
    (processTrade st t tr).history = st.history.record t tr := by
  rw [processTrade]
  split_ifs <;> rfl

theorem foldl_scanStep_eq (c : Nat) (lines : List LogLine) :
    ∀ acc : InvState × Nat,
      lines.foldl (scanStep c) acc =
        ((newEvents c lines).foldl processTradePair acc.1,
          acc.2 + (newEvents c lines).length) := by
  induction lines with
  | nil => intro acc; simp [newEvents]
  | cons l ls ih =>
    intro acc
    rw [List.foldl_cons]
    obtain ⟨ts, trade⟩ := l
    cases ts with
    | none =>
      rw [ih, newEvents_cons_no_ts c _ _ rfl]
      rfl
    | some t =>
      by_cases hc : t ≤ c
      · have hlt : ¬ c < t := by omega
        have hstep : scanStep c acc (⟨some t, trade⟩ : LogLine) = acc := by
          simp [scanStep, hc]
        rw [hstep, ih]
        cases trade with
        | none => rw [newEvents_cons_no_trade c _ _ rfl]
        | some tr => rw [newEvents_cons_trade c t tr _ _ rfl rfl, if_neg hlt]
      · have hlt : c < t := by omega
        cases trade with
        | none =>
          have hstep : scanStep c acc (⟨some t, none⟩ : LogLine) = acc := by
            simp [scanStep, hc]
          rw [hstep, ih, newEvents_cons_no_trade c _ _ rfl]
        | some tr =>
          have hstep : scanStep c acc (⟨some t, some tr⟩ : LogLine) =
              (processTrade acc.1 t tr, acc.2 + 1) := by
            simp [scanStep, hc]
          rw [hstep, ih, newEvents_cons_trade c t tr _ _ rfl rfl, if_pos hlt]
          rw [List.foldl_cons, List.length_cons]
          simp only [processTradePair, Prod.mk.injEq]
          exact ⟨trivial, by omega⟩

theorem scanSources_eq (c : Nat) (logs : List (Option (List LogLine))) :
    ∀ acc : InvState × Nat,
      scanSources c acc logs =
        ((newEvents c (allLines logs)).foldl processTradePair acc.1,
          acc.2 + (newEvents c (allLines logs)).length) := by
  induction logs with
  | nil => intro acc; simp [scanSources, allLines, newEvents]
  | cons ol ls ih =>
    intro acc
    cases ol with
    | none =>
      have h1 : scanSources c acc (none :: ls) = scanSources c acc ls := rfl
      have h2 : allLines (none :: ls) = allLines ls := by simp [allLines]
      rw [h1, ih, h2]
    | some lines =>
      have h1 : scanSources c acc (some lines :: ls) =
          scanSources c (lines.foldl (scanStep c) acc) ls := rfl
      have h2 : allLines (some lines :: ls) = lines ++ allLines ls := by
        simp [allLines]
      rw [h1, ih, foldl_scanStep_eq, h2, newEvents_append, List.foldl_append,
        List.length_append]
      simp only [Prod.mk.injEq]
      exact ⟨trivial, by omega⟩

theorem updateScan_eq (st : InvState) (logs : List (Option (List LogLine))) :
    updateScan st logs =
      ((newEvents (histLast st.history) (allLines logs)).foldl processTradePair st,
        (newEvents (histLast st.history) (allLines logs)).length) := by
  rw [updateScan, scanSources_eq]
  simp

theorem foldl_history_ts (evs : List (Nat × Trade)) :
    ∀ st : InvState,
      ((evs.foldl processTradePair st).history).timestamps =
        st.history.timestamps ++ evs.map Prod.fst := by
  induction evs with
  | nil => intro st; simp
  | cons e evs ih =>
    intro st
    rw [List.foldl_cons, ih]
    have h1 : (processTradePair st e).history = st.history.record e.1 e.2 :=
      processTrade_history st e.1 e.2
    rw [h1, History.record]
    simp

/-- The timestamps the run appends are exactly the trade timestamps beyond
the cutoff, in scan order. -/
theorem map_fst_newEvents (c : Nat) (lines : List LogLine) :
    (newEvents c lines).map Prod.fst = (tradeTss lines).filter (fun t => c < t) := by
  induction lines with
  | nil => simp [newEvents, tradeTss]
  | cons l ls ih =>
    obtain ⟨ts, trade⟩ := l
    cases ts with
    | none =>
      rw [newEvents_cons_no_ts c _ _ rfl, tradeTss_cons_no_ts _ _ rfl, ih]
    | some t =>
      cases trade with
      | none =>
        rw [newEvents_cons_no_trade c _ _ rfl, tradeTss_cons_no_trade _ _ rfl, ih]
      | some tr =>
        rw [newEvents_cons_trade c t tr _ _ rfl rfl, tradeTss_cons_trade t tr _ _ rfl rfl,
          List.filter_cons]
        by_cases hc : c < t
        · rw [if_pos hc, if_pos (by simpa using hc)]
          simp [ih]
        · rw [if_neg hc, if_neg (by simpa using hc)]
          exact ih

/-- If every trade timestamp is at or before the cutoff, nothing is
extracted. -/
theorem newEvents_eq_nil (c : Nat) (lines : List LogLine)
    (h : ∀ t ∈ tradeTss lines, t ≤ c) : newEvents c lines = [] := by
  induction lines with
  | nil => rfl
  | cons l ls ih =>
    obtain ⟨ts, trade⟩ := l
    cases ts with
    | none =>
      rw [newEvents_cons_no_ts c _ _ rfl]
      rw [tradeTss_cons_no_ts _ _ rfl] at h
      exact ih h
    | some t =>
      cases trade with
      | none =>
        rw [newEvents_cons_no_trade c _ _ rfl]
        rw [tradeTss_cons_no_trade _ _ rfl] at h
        exact ih h
      | some tr =>
        rw [tradeTss_cons_trade t tr _ _ rfl rfl] at h
        rw [newEvents_cons_trade c t tr _ _ rfl rfl]
        rw [if_neg (by have := h t (by simp); omega)]
        exact ih (fun u hu => h u (List.mem_cons_of_mem _ hu))

/-- When every line is a timestamped trade line beyond the cutoff, every
line yields an event, and the subjects and timestamps are the lines'. -/
theorem newEvents_all (c : Nat) (lines : List LogLine)
    (hA : ∀ l ∈ lines, ∃ t tr, l.ts = some t ∧ l.trade = some tr)
    (hnew : ∀ t ∈ tradeTss lines, c < t) :
    (newEvents c lines).length = lines.length ∧
      itemsOf (newEvents c lines) = tradeItems lines ∧
      (newEvents c lines).map Prod.fst = lines.filterMap LogLine.ts := by
  induction lines with
  | nil => simp [newEvents, itemsOf, tradeItems]
  | cons l ls ih =>
    obtain ⟨t, tr, hts, htr⟩ := hA l (by simp)
    rw [tradeTss_cons_trade t tr _ _ hts htr] at hnew
    have hct : c < t := hnew t (by simp)
    have ihh := ih (fun x hx => hA x (List.mem_cons_of_mem _ hx))
      (fun u hu => hnew u (List.mem_cons_of_mem _ hu))
    rw [newEvents_cons_trade c t tr _ _ hts htr, if_pos hct]
    refine ⟨by simp [ihh.1], ?_, ?_⟩
    · rw [itemsOf, List.map_cons, ← itemsOf, ihh.2.1, tradeItems_cons_trade tr _ _ htr]
    · rw [List.map_cons, ihh.2.2, List.filterMap_cons, hts]

/-! ## The classifier: sticky membership and per-run counting -/

theorem processTrade_of_inv (st : InvState) (t : Nat) (tr : Trade) (hinv : wordsInv st) :
    processTrade st t tr =
      if matchesWordPattern tr.item then
        ⟨st.history.record t tr, dincr st.words tr.item, st.items⟩
      else
        ⟨st.history.record t tr, st.words, dincr st.items tr.item⟩ := by
  by_cases hp : matchesWordPattern tr.item
  · rw [if_pos hp, processTrade, if_pos (by simp [hp])]
  · rw [if_neg hp]
    have hm : dmem st.words tr.item = false := by
      cases hmem : dmem st.words tr.item
      · rfl
      · exact absurd (hinv tr.item hmem) hp
    rw [processTrade, if_neg (by simp [hp, hm])]

theorem wordsInv_processTrade (st : InvState) (t : Nat) (tr : Trade)
    (hinv : wordsInv st) : wordsInv (processTrade st t tr) := by
  rw [processTrade_of_inv st t tr hinv]
  by_cases hp : matchesWordPattern tr.item
  · rw [if_pos hp]
    intro k hk
    simp only [dmem_dincr, Bool.or_eq_true, decide_eq_true_eq] at hk
    rcases hk with hk | hk
    · rw [← hk]; exact hp
    · exact hinv k hk
  · rw [if_neg hp]
    exact hinv

theorem wordsInv_foldl (evs : List (Nat × Trade)) :
    ∀ st : InvState, wordsInv st → wordsInv (evs.foldl processTradePair st) := by
  induction evs with
  | nil => intro st h; exact h
  | cons e evs ih =>
    intro st h
    rw [List.foldl_cons]
    exact ih _ (wordsInv_processTrade st e.1 e.2 h)

/-- Per-run counting: under the invariant, classification is the pure
pattern function, and each map accumulates exactly the occurrence counts
of its category's subjects. -/
theorem foldl_counts (k : String) (evs : List (Nat × Trade)) :
    ∀ st : InvState, wordsInv st →
      dGetD ((evs.foldl processTradePair st).words) k =
        dGetD st.words k +
          (if matchesWordPattern k then (itemsOf evs).count k else 0) ∧
      dGetD ((evs.foldl processTradePair st).items) k =
        dGetD st.items k +
          (if matchesWordPattern k then 0 else (itemsOf evs).count k) := by
  induction evs with
  | nil =>
    intro st hinv
    simp [itemsOf]
  | cons e evs ih =>
    intro st hinv
    rw [List.foldl_cons]
    have hstep := processTrade_of_inv st e.1 e.2 hinv
    have hinv2 : wordsInv (processTradePair st e) :=
      wordsInv_processTrade st e.1 e.2 hinv
    have ihh := ih (processTradePair st e) hinv2
    have hcount : (itemsOf (e :: evs)).count k =
        (itemsOf evs).count k + (if e.2.item = k then 1 else 0) := by
      rw [itemsOf, List.map_cons, ← itemsOf, List.count_cons]
      by_cases hik : e.2.item = k <;> simp [hik]
    rcases ihh with ⟨ihw, ihi⟩
    by_cases hp : matchesWordPattern e.2.item
    · have hw : (processTradePair st e).words = dincr st.words e.2.item := by
        rw [processTradePair, hstep, if_pos hp]
      have hi : (processTradePair st e).items = st.items := by
        rw [processTradePair, hstep, if_pos hp]
      rw [ihw, ihi, hw, hi, dGetD_dincr, hcount]
      by_cases hpk : matchesWordPattern k
      · by_cases hik : e.2.item = k <;> simp [hpk, hik] <;> omega
      · have hik : ¬ e.2.item = k := fun hh => hpk (hh ▸ hp)
        simp [hpk, hik]
    · have hw : (processTradePair st e).words = st.words := by
        rw [processTradePair, hstep, if_neg hp]
      have hi : (processTradePair st e).items = dincr st.items e.2.item := by
        rw [processTradePair, hstep, if_neg hp]
      rw [ihw, ihi, hw, hi, dGetD_dincr, hcount]
      by_cases hpk : matchesWordPattern k
      · have hik : ¬ e.2.item = k := fun hh => hp (hh ▸ hpk)
        simp [hpk, hik]
      · by_cases hik : e.2.item = k <;> simp [hpk, hik] <;> omega

theorem foldl_nodup_pos (evs : List (Nat × Trade)) :
    ∀ st : InvState,
      (dkeys st.words).Nodup → (dkeys st.items).Nodup →
      (∀ p ∈ st.words, 1 ≤ p.2) → (∀ p ∈ st.items, 1 ≤ p.2) →
      (dkeys ((evs.foldl processTradePair st).words)).Nodup ∧
      (dkeys ((evs.foldl processTradePair st).items)).Nodup ∧
      (∀ p ∈ (evs.foldl processTradePair st).words, 1 ≤ p.2) ∧
      (∀ p ∈ (evs.foldl processTradePair st).items, 1 ≤ p.2) := by
  induction evs with
  | nil => intro st h1 h2 h3 h4; exact ⟨h1, h2, h3, h4⟩
  | cons e evs ih =>
    intro st h1 h2 h3 h4
    rw [List.foldl_cons]
    rw [processTradePair, processTrade]
    split_ifs with hcl
    · exact ih _ (dkeys_dincr_nodup _ _ h1) h2 (dpos_dincr _ _ h3) h4
    · exact ih _ h1 (dkeys_dincr_nodup _ _ h2) h3 (dpos_dincr _ _ h4)

theorem foldl_dsum (evs : List (Nat × Trade)) :
    ∀ st : InvState,
      dsum ((evs.foldl processTradePair st).words) +
        dsum ((evs.foldl processTradePair st).items) =
      dsum st.words + dsum st.items + evs.length := by
  induction evs with
  | nil => intro st; simp
  | cons e evs ih =>
    intro st
    rw [List.foldl_cons, ih, List.length_cons]
    rw [processTradePair, processTrade]
    split_ifs with hcl
    · simp only [dsum_dincr]
      omega
    · simp only [dsum_dincr]
      omega

/-- From a fresh run start, the words map records exactly the occurrence
counts of the pattern-matching subjects, and the items map the rest. -/
theorem run_counts (evs : List (Nat × Trade)) (st0 : InvState)
    (hw : st0.words = []) (hi : st0.items = []) (k : String) :
    dGetD ((evs.foldl processTradePair st0).words) k =
      (if matchesWordPattern k then (itemsOf evs).count k else 0) ∧
    dGetD ((evs.foldl processTradePair st0).items) k =
      (if matchesWordPattern k then 0 else (itemsOf evs).count k) := by
  have hinv : wordsInv st0 := by
    intro j hj
    rw [hw] at hj
    simp [dmem, dlookup] at hj
  have h := foldl_counts k evs st0 hinv
  rw [hw, hi] at h
  simpa [dGetD, dlookup] using h

/-- A key of either per-run map is a subject that occurred in the run. -/
theorem run_keys_mem (evs : List (Nat × Trade)) (st0 : InvState)
    (hw : st0.words = []) (hi : st0.items = []) (k : String)
    (h : k ∈ dkeys ((evs.foldl processTradePair st0).words) ∨
      k ∈ dkeys ((evs.foldl processTradePair st0).items)) :
    k ∈ itemsOf evs := by
  have hinv : wordsInv st0 := by
    intro j hj
    rw [hw] at hj
    simp [dmem, dlookup] at hj
  have hpos := foldl_nodup_pos evs st0
    (by rw [hw]; simp [dkeys]) (by rw [hi]; simp [dkeys])
    (by rw [hw]; simp) (by rw [hi]; simp)
  have hcounts := run_counts evs st0 hw hi k
  rcases h with h | h
  · have hmem := (dmem_iff_mem_dkeys _ k).mpr h
    have hpos2 := (dmem_iff_pos _ k hpos.2.2.1).mp hmem
    rw [hcounts.1] at hpos2
    by_cases hpk : matchesWordPattern k
    · rw [if_pos hpk] at hpos2
      exact List.count_pos_iff.mp (by omega)
    · rw [if_neg hpk] at hpos2
      omega
  · have hmem := (dmem_iff_mem_dkeys _ k).mpr h
    have hpos2 := (dmem_iff_pos _ k hpos.2.2.2).mp hmem
    rw [hcounts.2] at hpos2
    by_cases hpk : matchesWordPattern k
    · rw [if_pos hpk] at hpos2
      omega
    · rw [if_neg hpk] at hpos2
      exact List.count_pos_iff.mp (by omega)

/-! ## Lemmas about the tabular merge -/

theorem bne_eq_not_beq_symm (a b : String) : (a != b) = !(b == a) := by
  by_cases h : a = b
  · subst h; rfl
  · have h1 : (a == b) = false := beq_eq_false_iff_ne.mpr h
    have h2 : (b == a) = false := beq_eq_false_iff_ne.mpr (fun hh => h hh.symm)
    rw [bne, h1, h2]

theorem processRows_nil (nc cc : Nat) (ds : List (String × Nat)) :
    processRows nc cc [] ds = .ok ([], ds) := rfl

theorem processRows_cons_narrow (nc cc : Nat) (r : List String) (rs : List (List String))
    (ds : List (String × Nat)) (h : wfRow nc cc r = false) :
    processRows nc cc (r :: rs) ds = processRows nc cc rs ds := by
  rw [processRows, if_neg (by simp [h])]

theorem processRows_cons_miss (nc cc : Nat) (r : List String) (rs : List (List String))
    (ds : List (String × Nat)) (hwf : wfRow nc cc r = true)
    (hmiss : dlookup ds (r.getD nc "") = none) :
    processRows nc cc (r :: rs) ds =
      match processRows nc cc rs ds with
      | .error e => .error e
      | .ok (o, lf) => .ok (r :: o, lf) := by
  rw [processRows, if_pos (by simp [hwf]), hmiss]

theorem processRows_cons_hit (nc cc : Nat) (r : List String) (rs : List (List String))
    (ds : List (String × Nat)) (d : Nat) (v : Int) (hwf : wfRow nc cc r = true)
    (hhit : dlookup ds (r.getD nc "") = some d) (hv : pyInt (r.getD cc "") = some v) :
    processRows nc cc (r :: rs) ds =
      match processRows nc cc rs (dremove ds (r.getD nc "")) with
      | .error e => .error e
      | .ok (o, lf) => .ok (r.set cc (pyStrInt (v + (d : Int))) :: o, lf) := by
  rw [processRows, if_pos (by simp [hwf]), hhit, hv]

theorem processRows_cons_hit_bad (nc cc : Nat) (r : List String) (rs : List (List String))
    (ds : List (String × Nat)) (d : Nat) (hwf : wfRow nc cc r = true)
    (hhit : dlookup ds (r.getD nc "") = some d) (hv : pyInt (r.getD cc "") = none) :
    processRows nc cc (r :: rs) ds = .error .valueError := by
  rw [processRows, if_pos (by simp [hwf]), hhit, hv]

/-- The keys still pending after the row pass are exactly those that no
readable row names. -/
theorem processRows_leftover (nc cc : Nat) (rows : List (List String)) :
    ∀ ds o lf, (dkeys ds).Nodup → processRows nc cc rows ds = .ok (o, lf) →
      lf = ds.filter (fun p => !(rows.any (rowMatches nc cc p.1))) := by
  induction rows with
  | nil =>
    intro ds o lf _ h
    rw [processRows_nil] at h
    cases h
    simp
  | cons r rows ih =>
    intro ds o lf hnd h
    cases hwf : wfRow nc cc r with
    | false =>
      rw [processRows_cons_narrow nc cc r rows ds hwf] at h
      rw [ih ds o lf hnd h]
      refine List.filter_congr fun p _ => ?_
      rw [List.any_cons, rowMatches, hwf]
      simp
    | true =>
      cases hhit : dlookup ds (r.getD nc "") with
      | none =>
        rw [processRows_cons_miss nc cc r rows ds hwf hhit] at h
        cases hrec : processRows nc cc rows ds with
        | error e => rw [hrec] at h; cases h
        | ok p =>
          obtain ⟨o2, lf2⟩ := p
          rw [hrec] at h
          cases h
          rw [ih ds o2 lf hnd hrec]
          refine List.filter_congr fun p hp => ?_
          have hne : ¬ r.getD nc "" = p.1 := by
            intro hh
            have hmem : p.1 ∈ dkeys ds := List.mem_map.mpr ⟨p, hp, rfl⟩
            have := (dmem_iff_mem_dkeys ds p.1).mpr hmem
            rw [dmem, ← hh, hhit] at this
            simp at this
          have hrm : rowMatches nc cc p.1 r = false := by
            rw [rowMatches, hwf, Bool.true_and]
            exact beq_eq_false_iff_ne.mpr hne
          rw [List.any_cons, hrm, Bool.false_or]
      | some d =>
        cases hv : pyInt (r.getD cc "") with
        | none =>
          rw [processRows_cons_hit_bad nc cc r rows ds d hwf hhit hv] at h
          cases h
        | some v =>
          rw [processRows_cons_hit nc cc r rows ds d v hwf hhit hv] at h
          cases hrec : processRows nc cc rows (dremove ds (r.getD nc "")) with
          | error e => rw [hrec] at h; cases h
          | ok p =>
            obtain ⟨o2, lf2⟩ := p
            rw [hrec] at h
            cases h
            rw [ih _ o2 lf (dkeys_dremove_nodup ds _ hnd) hrec]
            rw [dremove_eq_filter ds _ hnd, List.filter_filter]
            refine List.filter_congr fun p _ => ?_
            have hrm : rowMatches nc cc p.1 r = (r.getD nc "" == p.1) := by
              rw [rowMatches, hwf, Bool.true_and]
            rw [List.any_cons, hrm]
            cases hb : rows.any (rowMatches nc cc p.1)
            · simp [hb]
              exact bne_eq_not_beq_symm _ _
            · simp [hb]

/-- Every readable row is written (and narrow rows are not): the row pass
writes exactly the readable rows. -/
theorem processRows_length (nc cc : Nat) (rows : List (List String)) :
    ∀ ds o lf, processRows nc cc rows ds = .ok (o, lf) →
      o.length = (rows.filter (wfRow nc cc)).length := by
  induction rows with
  | nil =>
    intro ds o lf h
    rw [processRows_nil] at h
    cases h
    simp
  | cons r rows ih =>
    intro ds o lf h
    cases hwf : wfRow nc cc r with
    | false =>
      rw [processRows_cons_narrow nc cc r rows ds hwf] at h
      rw [List.filter_cons, hwf]
      simpa using ih ds o lf h
    | true =>
      rw [List.filter_cons, hwf]
      simp only [if_pos]
      cases hhit : dlookup ds (r.getD nc "") with
      | none =>
        rw [processRows_cons_miss nc cc r rows ds hwf hhit] at h
        cases hrec : processRows nc cc rows ds with
        | error e => rw [hrec] at h; cases h
        | ok p =>
          obtain ⟨o2, lf2⟩ := p
          rw [hrec] at h
          cases h
          simpa using ih ds o2 _ hrec
      | some d =>
        cases hv : pyInt (r.getD cc "") with
        | none =>
          rw [processRows_cons_hit_bad nc cc r rows ds d hwf hhit hv] at h
          cases h
        | some v =>
          rw [processRows_cons_hit nc cc r rows ds d v hwf hhit hv] at h
          cases hrec : processRows nc cc rows (dremove ds (r.getD nc "")) with
          | error e => rw [hrec] at h; cases h
          | ok p =>
            obtain ⟨o2, lf2⟩ := p
            rw [hrec] at h
            cases h
            simpa using ih _ o2 _ hrec

theorem appendNewRows_ok (nc cc numCols : Nat) (hn : nc < numCols) (hc : cc < numCols) :
    ∀ lf, appendNewRows nc cc numCols lf =
      .ok (lf.map (fun p => appendedRow nc cc numCols p.1 p.2)) := by
  intro lf
  induction lf with
  | nil => rfl
  | cons p lf ih =>
    obtain ⟨k, d⟩ := p
    rw [appendNewRows, if_pos ⟨hn, hc⟩, ih]
    rfl

theorem appendNewRows_err (nc cc numCols : Nat) (h : ¬ (nc < numCols ∧ cc < numCols)) :
    ∀ lf, lf ≠ [] → appendNewRows nc cc numCols lf = .error .indexError := by
  intro lf hne
  cases lf with
  | nil => exact absurd rfl hne
  | cons p lf =>
    obtain ⟨k, d⟩ := p
    rw [appendNewRows, if_neg h]

/-! ## Row access helpers -/

theorem getD_set_ne (l : List String) (i j : Nat) (x : String) (h : i ≠ j) :
    (l.set i x).getD j "" = l.getD j "" := by
  rw [List.getD, List.getD, List.get?_eq_getElem?, List.get?_eq_getElem?,
    List.getElem?_set_ne h]

theorem getD_set_self (l : List String) (i : Nat) (x : String) (h : i < l.length) :
    (l.set i x).getD i "" = x := by
  rw [List.getD, List.get?_eq_getElem?, List.getElem?_set_self]
  · simp [h]
  · exact h

theorem getD_of_le (l : List String) (j : Nat) (h : l.length ≤ j) : l.getD j "" = "" := by
  rw [List.getD, List.get?_eq_getElem?, List.getElem?_eq_none h]
  rfl

theorem wfRow_set (nc cc i : Nat) (r : List String) (x : String) :
    wfRow nc cc (r.set i x) = wfRow nc cc r := by
  rw [wfRow, wfRow, List.length_set]

theorem pyInt_empty : pyInt "" = none := rfl

theorem appendedRow_length (nc cc m : Nat) (k : String) (d : Nat) :
    (appendedRow nc cc m k d).length = m := by
  rw [appendedRow, List.length_set, List.length_set, List.length_replicate]

theorem appendedRow_name (nc cc m : Nat) (k : String) (d : Nat)
    (hne : nc ≠ cc) (hn : nc < m) :
    (appendedRow nc cc m k d).getD nc "" = k := by
  rw [appendedRow, getD_set_ne _ cc nc _ (fun hh => hne hh.symm),
    getD_set_self _ nc _ (by simpa using hn)]

theorem appendedRow_count (nc cc m : Nat) (k : String) (d : Nat) (hc : cc < m) :
    (appendedRow nc cc m k d).getD cc "" = pyStrInt (d : Int) := by
  rw [appendedRow, getD_set_self _ cc _ (by simp [hc])]

theorem wfRow_appendedRow (nc cc m : Nat) (k : String) (d : Nat) (h : max nc cc < m) :
    wfRow nc cc (appendedRow nc cc m k d) = true := by
  rw [wfRow, appendedRow_length]
  simpa using h

/-! ## Count accounting across the merge -/

theorem keyTotal_nil (nc cc : Nat) (k : String) : keyTotal nc cc [] k = 0 := rfl

theorem keyTotal_cons (nc cc : Nat) (k : String) (r : List String) (rest : List (List String)) :
    keyTotal nc cc (r :: rest) k =
      (if rowMatches nc cc k r then (pyInt (r.getD cc "")).getD 0 else 0) +
        keyTotal nc cc rest k := by
  rw [keyTotal, List.filter_cons]
  cases hm : (wfRow nc cc r && (r.getD nc "" == k)) with
  | false =>
    have hrm : rowMatches nc cc k r = false := hm
    rw [hrm]
    simp [keyTotal]
  | true =>
    have hrm : rowMatches nc cc k r = true := hm
    rw [hrm]
    simp [keyTotal]

theorem keyTotal_append (nc cc : Nat) (k : String) (a b : List (List String)) :
    keyTotal nc cc (a ++ b) k = keyTotal nc cc a k + keyTotal nc cc b k := by
  rw [keyTotal, keyTotal, keyTotal, List.filter_append, List.map_append, List.sum_append]

theorem csvSum_nil (cc : Nat) : csvSum cc [] = 0 := rfl

theorem csvSum_cons (cc : Nat) (r : List String) (rest : List (List String)) :
    csvSum cc (r :: rest) = (pyInt (r.getD cc "")).getD 0 + csvSum cc rest := by
  rw [csvSum, List.map_cons, List.sum_cons, csvSum]

theorem csvSum_append (cc : Nat) (a b : List (List String)) :
    csvSum cc (a ++ b) = csvSum cc a + csvSum cc b := by
  rw [csvSum, csvSum, csvSum, List.map_append, List.sum_append]

theorem keyTotal_cons_match (nc cc : Nat) (k : String) (r : List String)
    (rest : List (List String)) (h : rowMatches nc cc k r = true) :
    keyTotal nc cc (r :: rest) k =
      (pyInt (r.getD cc "")).getD 0 + keyTotal nc cc rest k := by
  rw [keyTotal_cons, h, if_pos rfl]

theorem keyTotal_cons_nomatch (nc cc : Nat) (k : String) (r : List String)
    (rest : List (List String)) (h : rowMatches nc cc k r = false) :
    keyTotal nc cc (r :: rest) k = keyTotal nc cc rest k := by
  rw [keyTotal_cons, h]
  simp

/-- Contribution accounting for the row pass: what has been written plus
what is still pending is conserved, per key. -/
theorem processRows_keyTotal (nc cc : Nat) (hne : nc ≠ cc) (rows : List (List String)) :
    ∀ ds o lf (k : String), (dkeys ds).Nodup →
      processRows nc cc rows ds = .ok (o, lf) →
      keyTotal nc cc o k + ((dGetD lf k : Nat) : Int) =
        keyTotal nc cc rows k + ((dGetD ds k : Nat) : Int) := by
  induction rows with
  | nil =>
    intro ds o lf k _ h
    rw [processRows_nil] at h
    cases h
    rfl
  | cons r rows ih =>
    intro ds o lf k hnd h
    cases hwf : wfRow nc cc r with
    | false =>
      rw [processRows_cons_narrow nc cc r rows ds hwf] at h
      have hrm : rowMatches nc cc k r = false := by
        rw [rowMatches, hwf, Bool.false_and]
      rw [keyTotal_cons_nomatch _ _ _ _ _ hrm]
      exact ih ds o lf k hnd h
    | true =>
      cases hhit : dlookup ds (r.getD nc "") with
      | none =>
        rw [processRows_cons_miss nc cc r rows ds hwf hhit] at h
        cases hrec : processRows nc cc rows ds with
        | error e => rw [hrec] at h; cases h
        | ok p =>
          obtain ⟨o2, lf2⟩ := p
          rw [hrec] at h
          cases h
          have ihh := ih ds o2 _ k hnd hrec
          cases hrm : rowMatches nc cc k r with
          | false =>
            rw [keyTotal_cons_nomatch _ _ _ _ _ hrm, keyTotal_cons_nomatch _ _ _ _ _ hrm]
            exact ihh
          | true =>
            rw [keyTotal_cons_match _ _ _ _ _ hrm, keyTotal_cons_match _ _ _ _ _ hrm]
            omega
      | some d =>
        cases hv : pyInt (r.getD cc "") with
        | none =>
          rw [processRows_cons_hit_bad nc cc r rows ds d hwf hhit hv] at h
          cases h
        | some v =>
          rw [processRows_cons_hit nc cc r rows ds d v hwf hhit hv] at h
          cases hrec : processRows nc cc rows (dremove ds (r.getD nc "")) with
          | error e => rw [hrec] at h; cases h
          | ok p =>
            obtain ⟨o2, lf2⟩ := p
            rw [hrec] at h
            cases h
            have hlen : cc < r.length := by
              have := of_decide_eq_true hwf
              omega
            have hname : (r.set cc (pyStrInt (v + (d : Int)))).getD nc "" = r.getD nc "" :=
              getD_set_ne r cc nc _ (fun hh => hne hh.symm)
            have hcount : (r.set cc (pyStrInt (v + (d : Int)))).getD cc "" =
                pyStrInt (v + (d : Int)) := getD_set_self r cc _ hlen
            have hrm2 : rowMatches nc cc k (r.set cc (pyStrInt (v + (d : Int)))) =
                rowMatches nc cc k r := by
              rw [rowMatches, rowMatches, wfRow_set, hname]
            have ihh := ih _ o2 _ k (dkeys_dremove_nodup ds _ hnd) hrec
            by_cases hk : r.getD nc "" = k
            · have hrm : rowMatches nc cc k r = true := by
                rw [rowMatches, hwf, Bool.true_and]
                exact beq_iff_eq.mpr hk
              have hrm3 : rowMatches nc cc k (r.set cc (pyStrInt (v + (d : Int)))) = true := by
                rw [hrm2]; exact hrm
              rw [keyTotal_cons_match _ _ _ _ _ hrm3, keyTotal_cons_match _ _ _ _ _ hrm]
              rw [hcount, pyInt_pyStrInt, hv]
              simp only [Option.getD_some]
              have hd : dGetD ds k = d := by
                rw [dGetD, ← hk, hhit]
                rfl
              have hd2 : dGetD (dremove ds (r.getD nc "")) k = 0 := by
                rw [dGetD, ← hk, dlookup_dremove_self ds _ hnd]
                rfl
              rw [hd2] at ihh
              rw [hd]
              omega
            · have hrm : rowMatches nc cc k r = false := by
                rw [rowMatches, hwf, Bool.true_and]
                exact beq_eq_false_iff_ne.mpr hk
              have hrm3 : rowMatches nc cc k (r.set cc (pyStrInt (v + (d : Int)))) = false := by
                rw [hrm2]; exact hrm
              rw [keyTotal_cons_nomatch _ _ _ _ _ hrm3, keyTotal_cons_nomatch _ _ _ _ _ hrm]
              have hd2 : dGetD (dremove ds (r.getD nc "")) k = dGetD ds k := by
                rw [dGetD, dlookup_dremove_ne ds k _ (fun hh => hk hh.symm), dGetD]
              rw [hd2] at ihh
              exact ihh

/-- A row too narrow to be readable (with the name column left of the
count column, as in both inventory files) has no count field. -/
theorem narrow_row_count_zero (nc cc : Nat) (hlt : nc < cc) (r : List String)
    (hwf : wfRow nc cc r = false) : (pyInt (r.getD cc "")).getD 0 = 0 := by
  have hmax : max nc cc = cc := Nat.max_eq_right (Nat.le_of_lt hlt)
  have hlen : r.length ≤ cc := by
    have := of_decide_eq_false hwf
    omega
  rw [getD_of_le r cc hlen, pyInt_empty]
  rfl

/-- Grand-total accounting for the row pass. -/
theorem processRows_csvSum (nc cc : Nat) (hlt : nc < cc) (rows : List (List String)) :
    ∀ ds o lf, (dkeys ds).Nodup →
      processRows nc cc rows ds = .ok (o, lf) →
      csvSum cc o + ((dsum lf : Nat) : Int) = csvSum cc rows + ((dsum ds : Nat) : Int) := by
  induction rows with
  | nil =>
    intro ds o lf _ h
    rw [processRows_nil] at h
    cases h
    rfl
  | cons r rows ih =>
    intro ds o lf hnd h
    cases hwf : wfRow nc cc r with
    | false =>
      rw [processRows_cons_narrow nc cc r rows ds hwf] at h
      rw [csvSum_cons, narrow_row_count_zero nc cc hlt r hwf]
      have ihh := ih ds o lf hnd h
      omega
    | true =>
      cases hhit : dlookup ds (r.getD nc "") with
      | none =>
        rw [processRows_cons_miss nc cc r rows ds hwf hhit] at h
        cases hrec : processRows nc cc rows ds with
        | error e => rw [hrec] at h; cases h
        | ok p =>
          obtain ⟨o2, lf2⟩ := p
          rw [hrec] at h
          cases h
          have ihh := ih ds o2 _ hnd hrec
          rw [csvSum_cons, csvSum_cons]
          omega
      | some d =>
        cases hv : pyInt (r.getD cc "") with
        | none =>
          rw [processRows_cons_hit_bad nc cc r rows ds d hwf hhit hv] at h
          cases h
        | some v =>
          rw [processRows_cons_hit nc cc r rows ds d v hwf hhit hv] at h
          cases hrec : processRows nc cc rows (dremove ds (r.getD nc "")) with
          | error e => rw [hrec] at h; cases h
          | ok p =>
            obtain ⟨o2, lf2⟩ := p
            rw [hrec] at h
            cases h
            have hlen : cc < r.length := by
              have := of_decide_eq_true hwf
              omega
            have hcount : (r.set cc (pyStrInt (v + (d : Int)))).getD cc "" =
                pyStrInt (v + (d : Int)) := getD_set_self r cc _ hlen
            have ihh := ih _ o2 _ (dkeys_dremove_nodup ds _ hnd) hrec
            have hsum : dsum ds = d + dsum (dremove ds (r.getD nc "")) :=
              dsum_dremove ds _ d hhit
            rw [csvSum_cons, csvSum_cons, hcount, pyInt_pyStrInt, hv, hsum]
            simp only [Option.getD_some]
            push_cast
            omega

/-- Success of the append loop forces the appended shape (and, when any
key remains, the width precondition). -/
theorem appendNewRows_ok_inv (nc cc m : Nat) :
    ∀ lf apps, appendNewRows nc cc m lf = .ok apps →
      apps = lf.map (fun p => appendedRow nc cc m p.1 p.2) ∧
        (lf = [] ∨ (nc < m ∧ cc < m)) := by
  intro lf
  induction lf with
  | nil =>
    intro apps h
    cases h
    exact ⟨rfl, Or.inl rfl⟩
  | cons p lf ih =>
    intro apps h
    obtain ⟨k, d⟩ := p
    by_cases hcond : nc < m ∧ cc < m
    · rw [appendNewRows, if_pos hcond] at h
      cases hrec : appendNewRows nc cc m lf with
      | error e => rw [hrec] at h; cases h
      | ok out =>
        rw [hrec] at h
        cases h
        rw [(ih out hrec).1]
        exact ⟨rfl, Or.inr hcond⟩
    · rw [appendNewRows, if_neg hcond] at h
      cases h

/-- Each appended row contributes its key's pending count, once. -/
theorem keyTotal_appended (nc cc m : Nat) (hne : nc ≠ cc) (hn : nc < m) (hc : cc < m)
    (k : String) :
    ∀ lf, (dkeys lf).Nodup →
      keyTotal nc cc (lf.map (fun p => appendedRow nc cc m p.1 p.2)) k =
        ((dGetD lf k : Nat) : Int) := by
  intro lf
  induction lf with
  | nil =>
    intro _
    simp [keyTotal_nil, dGetD, dlookup]
  | cons p lf ih =>
    intro hnd
    obtain ⟨k2, d2⟩ := p
    rw [dkeys_cons, List.nodup_cons] at hnd
    have hmax : max nc cc < m := by omega
    rw [List.map_cons]
    by_cases hk : k2 = k
    · subst hk
      have hrm : rowMatches nc cc k2 (appendedRow nc cc m k2 d2) = true := by
        rw [rowMatches, wfRow_appendedRow nc cc m k2 d2 hmax, Bool.true_and,
          appendedRow_name nc cc m k2 d2 hne hn]
        exact beq_self_eq_true k2
      rw [keyTotal_cons_match _ _ _ _ _ hrm, appendedRow_count nc cc m k2 d2 hc,
        pyInt_pyStrInt]
      have hz : keyTotal nc cc (lf.map (fun p => appendedRow nc cc m p.1 p.2)) k2 = 0 := by
        rw [ih hnd.2]
        have : dlookup lf k2 = none := dlookup_eq_none lf k2 hnd.1
        rw [dGetD, this]
        rfl
      rw [hz]
      have : dGetD ((k2, d2) :: lf) k2 = d2 := by
        rw [dGetD, dlookup, if_pos rfl]
        rfl
      rw [this]
      simp
    · have hrm : rowMatches nc cc k (appendedRow nc cc m k2 d2) = false := by
        rw [rowMatches, wfRow_appendedRow nc cc m k2 d2 hmax, Bool.true_and,
          appendedRow_name nc cc m k2 d2 hne hn]
        exact beq_eq_false_iff_ne.mpr hk
      rw [keyTotal_cons_nomatch _ _ _ _ _ hrm, ih hnd.2]
      have : dGetD ((k2, d2) :: lf) k = dGetD lf k := by
        rw [dGetD, dlookup, if_neg hk, dGetD]
      rw [this]

/-- The appended rows add exactly the pending counts, in total. -/
theorem csvSum_appended (nc cc m : Nat) (hc : cc < m) :
    ∀ lf, csvSum cc (lf.map (fun p => appendedRow nc cc m p.1 p.2)) =
      ((dsum lf : Nat) : Int) := by
  intro lf
  induction lf with
  | nil => simp [csvSum_nil, dsum]
  | cons p lf ih =>
    obtain ⟨k2, d2⟩ := p
    rw [List.map_cons, csvSum_cons, appendedRow_count nc cc m k2 d2 hc, pyInt_pyStrInt, ih]
    have : dsum ((k2, d2) :: lf) = d2 + dsum lf := by
      rw [dsum, List.map_cons, List.sum_cons, dsum]
    rw [this]
    push_cast
    simp

/-- The pending keys form a sub-dict of the input dict. -/
theorem processRows_leftover_sublist (nc cc : Nat) (rows : List (List String)) :
    ∀ ds o lf, processRows nc cc rows ds = .ok (o, lf) → lf.Sublist ds := by
  induction rows with
  | nil =>
    intro ds o lf h
    rw [processRows_nil] at h
    cases h
    exact List.Sublist.refl ds
  | cons r rows ih =>
    intro ds o lf h
    cases hwf : wfRow nc cc r with
    | false =>
      rw [processRows_cons_narrow nc cc r rows ds hwf] at h
      exact ih ds o lf h
    | true =>
      cases hhit : dlookup ds (r.getD nc "") with
      | none =>
        rw [processRows_cons_miss nc cc r rows ds hwf hhit] at h
        cases hrec : processRows nc cc rows ds with
        | error e => rw [hrec] at h; cases h
        | ok p =>
          obtain ⟨o2, lf2⟩ := p
          rw [hrec] at h
          cases h
          exact ih ds o2 _ hrec
      | some d =>
        cases hv : pyInt (r.getD cc "") with
        | none =>
          rw [processRows_cons_hit_bad nc cc r rows ds d hwf hhit hv] at h
          cases h
        | some v =>
          rw [processRows_cons_hit nc cc r rows ds d v hwf hhit hv] at h
          cases hrec : processRows nc cc rows (dremove ds (r.getD nc "")) with
          | error e => rw [hrec] at h; cases h
          | ok p =>
            obtain ⟨o2, lf2⟩ := p
            rw [hrec] at h
            cases h
            exact (ih _ o2 _ hrec).trans (dremove_sublist ds _)

theorem addCountsToCsv_eq (nc cc : Nat) (rows : List (List String))
    (ds : List (String × Nat)) (o : List (List String)) (lf : List (String × Nat))
    (h : processRows nc cc rows ds = .ok (o, lf)) :
    addCountsToCsv nc cc rows ds =
      match appendNewRows nc cc (maxWidth rows) lf with
      | .error e => .error e
      | .ok apps => .ok (o ++ apps) := by
  rw [addCountsToCsv, h]

theorem addCountsToCsv_error_of_processRows (nc cc : Nat) (rows : List (List String))
    (ds : List (String × Nat)) (e : MergeErr) (h : processRows nc cc rows ds = .error e) :
    addCountsToCsv nc cc rows ds = .error e := by
  rw [addCountsToCsv, h]

/-- On success, the output decomposes into the rewritten readable rows
followed by one appended row per pending key. -/
theorem addCountsToCsv_ok_inv (nc cc : Nat) (rows : List (List String))
    (ds : List (String × Nat)) (out : List (List String))
    (h : addCountsToCsv nc cc rows ds = .ok out) :
    ∃ o lf, processRows nc cc rows ds = .ok (o, lf) ∧
      out = o ++ lf.map (fun p => appendedRow nc cc (maxWidth rows) p.1 p.2) ∧
      (lf = [] ∨ (nc < maxWidth rows ∧ cc < maxWidth rows)) := by
  cases hpr : processRows nc cc rows ds with
  | error e =>
    rw [addCountsToCsv_error_of_processRows nc cc rows ds e hpr] at h
    cases h
  | ok p =>
    obtain ⟨o, lf⟩ := p
    rw [addCountsToCsv_eq nc cc rows ds o lf hpr] at h
    cases happ : appendNewRows nc cc (maxWidth rows) lf with
    | error e => rw [happ] at h; cases h
    | ok apps =>
      rw [happ] at h
      cases h
      obtain ⟨hshape, hwidth⟩ := appendNewRows_ok_inv nc cc (maxWidth rows) lf apps happ
      refine ⟨o, lf, rfl, ?_, hwidth⟩
      rw [hshape]

/-- C2's per-key guarantee, numerically: a successful merge adds each
pending count to its key's recorded total exactly once (keys not in the
deltas are unchanged, their pending count being zero). -/
theorem addCountsToCsv_keyTotal (nc cc : Nat) (hne : nc ≠ cc) (rows : List (List String))
    (ds : List (String × Nat)) (out : List (List String)) (k : String)
    (hnd : (dkeys ds).Nodup) (h : addCountsToCsv nc cc rows ds = .ok out) :
    keyTotal nc cc out k = keyTotal nc cc rows k + ((dGetD ds k : Nat) : Int) := by
  obtain ⟨o, lf, hpr, hout, hwidth⟩ := addCountsToCsv_ok_inv nc cc rows ds out h
  have hacc := processRows_keyTotal nc cc hne rows ds o lf k hnd hpr
  rw [hout, keyTotal_append]
  rcases hwidth with hnil | ⟨hn, hc⟩
  · subst hnil
    have hz : dGetD ([] : List (String × Nat)) k = 0 := rfl
    rw [hz] at hacc
    simp at hacc ⊢
    rw [keyTotal_nil]
    omega
  · have hlfnd : (dkeys lf).Nodup :=
      hnd.sublist ((processRows_leftover_sublist nc cc rows ds o lf hpr).map Prod.fst)
    rw [keyTotal_appended nc cc (maxWidth rows) hne hn hc k lf hlfnd]
    omega

/-- C1's total accounting: a successful merge increases the file's count
total by exactly the sum of the deltas. -/
theorem addCountsToCsv_csvSum (nc cc : Nat) (hlt : nc < cc) (rows : List (List String))
    (ds : List (String × Nat)) (out : List (List String))
    (hnd : (dkeys ds).Nodup) (h : addCountsToCsv nc cc rows ds = .ok out) :
    csvSum cc out = csvSum cc rows + ((dsum ds : Nat) : Int) := by
  obtain ⟨o, lf, hpr, hout, hwidth⟩ := addCountsToCsv_ok_inv nc cc rows ds out h
  have hacc := processRows_csvSum nc cc hlt rows ds o lf hnd hpr
  rw [hout, csvSum_append]
  rcases hwidth with hnil | ⟨hn, hc⟩
  · subst hnil
    have hz : dsum ([] : List (String × Nat)) = 0 := rfl
    rw [hz] at hacc
    simp at hacc ⊢
    rw [csvSum_nil]
    omega
  · rw [csvSum_appended nc cc (maxWidth rows) hc lf]
    omega

/-- If keys remain pending and the widest input row does not reach past
both contracted columns, the append loop raises `IndexError`. -/
theorem addCountsToCsv_indexError (nc cc : Nat) (rows : List (List String))
    (ds : List (String × Nat)) (o : List (List String)) (lf : List (String × Nat))
    (hpr : processRows nc cc rows ds = .ok (o, lf)) (hlf : lf ≠ [])
    (hw : maxWidth rows ≤ max nc cc) :
    addCountsToCsv nc cc rows ds = .error .indexError := by
  rw [addCountsToCsv_eq nc cc rows ds o lf hpr]
  have hcond : ¬ (nc < maxWidth rows ∧ cc < maxWidth rows) := by
    intro hh
    have := Nat.max_lt.mpr hh
    omega
  rw [appendNewRows_err nc cc (maxWidth rows) hcond lf hlf]

/-! ## Positional characterization of the row pass (first-match semantics) -/

/-- Each written row is its input readable row, bumped exactly when it is
the first readable row bearing a pending key's name. -/
theorem processRows_get? (nc cc : Nat) (rows : List (List String)) :
    ∀ ds o lf, (dkeys ds).Nodup → processRows nc cc rows ds = .ok (o, lf) →
      ∀ i : Nat,
        o.get? i = ((rows.filter (wfRow nc cc)).get? i).map (fun r =>
          if dmem ds (r.getD nc "") && firstOcc nc (rows.filter (wfRow nc cc)) i r then
            bumpRow nc cc ds r
          else r) := by
  induction rows with
  | nil =>
    intro ds o lf _ h i
    rw [processRows_nil] at h
    cases h
    simp
  | cons r rows ih =>
    intro ds o lf hnd h i
    cases hwf : wfRow nc cc r with
    | false =>
      rw [processRows_cons_narrow nc cc r rows ds hwf] at h
      rw [List.filter_cons, hwf]
      simp only [Bool.false_eq_true, if_false]
      exact ih ds o lf hnd h i
    | true =>
      rw [List.filter_cons, hwf]
      simp only [if_pos]
      cases hhit : dlookup ds (r.getD nc "") with
      | none =>
        rw [processRows_cons_miss nc cc r rows ds hwf hhit] at h
        cases hrec : processRows nc cc rows ds with
        | error e => rw [hrec] at h; cases h
        | ok p =>
          obtain ⟨o2, lf2⟩ := p
          rw [hrec] at h
          cases h
          have hdm : dmem ds (r.getD nc "") = false := by
            rw [dmem, hhit]
            rfl
          cases i with
          | zero =>
            rw [List.get?_cons_zero, List.get?_cons_zero, Option.map_some']
            rw [hdm, Bool.false_and]
            simp
          | succ i =>
            rw [List.get?_cons_succ, List.get?_cons_succ]
            rw [ih ds o2 _ hnd hrec i]
            cases hW : (rows.filter (wfRow nc cc)).get? i with
            | none => simp only [hW, Option.map_none']
            | some r2 =>
              simp only [hW, Option.map_some']
              have htake : (r :: rows.filter (wfRow nc cc)).take (i + 1) =
                  r :: (rows.filter (wfRow nc cc)).take i := List.take_succ_cons
              by_cases hn2 : r2.getD nc "" = r.getD nc ""
              · have hdm2 : dmem ds (r2.getD nc "") = false := by
                  rw [hn2]; exact hdm
                rw [hdm2, Bool.false_and, Bool.false_and]
              · have hhead : (r.getD nc "" == r2.getD nc "") = false :=
                  beq_eq_false_iff_ne.mpr (fun hh => hn2 hh.symm)
                have hfo : firstOcc nc (r :: rows.filter (wfRow nc cc)) (i + 1) r2 =
                    firstOcc nc (rows.filter (wfRow nc cc)) i r2 := by
                  rw [firstOcc, firstOcc, htake, List.any_cons, hhead, Bool.false_or]
                rw [hfo]
      | some d =>
        cases hv : pyInt (r.getD cc "") with
        | none =>
          rw [processRows_cons_hit_bad nc cc r rows ds d hwf hhit hv] at h
          cases h
        | some v =>
          rw [processRows_cons_hit nc cc r rows ds d v hwf hhit hv] at h
          cases hrec : processRows nc cc rows (dremove ds (r.getD nc "")) with
          | error e => rw [hrec] at h; cases h
          | ok p =>
            obtain ⟨o2, lf2⟩ := p
            rw [hrec] at h
            cases h
            have hdm : dmem ds (r.getD nc "") = true := by
              rw [dmem, hhit]
              rfl
            cases i with
            | zero =>
              rw [List.get?_cons_zero, List.get?_cons_zero, Option.map_some']
              have hfo : firstOcc nc (r :: rows.filter (wfRow nc cc)) 0 r = true := rfl
              rw [hdm, hfo, Bool.and_true]
              simp only [if_pos]
              rw [bumpRow, hv]
              have hgd : dGetD ds (r.getD nc "") = d := by
                rw [dGetD, hhit]
                rfl
              rw [hgd]
              rfl
            | succ i =>
              rw [List.get?_cons_succ, List.get?_cons_succ]
              rw [ih _ o2 _ (dkeys_dremove_nodup ds _ hnd) hrec i]
              cases hW : (rows.filter (wfRow nc cc)).get? i with
              | none => simp only [hW, Option.map_none']
              | some r2 =>
                simp only [hW, Option.map_some']
                have htake : (r :: rows.filter (wfRow nc cc)).take (i + 1) =
                    r :: (rows.filter (wfRow nc cc)).take i := List.take_succ_cons
                by_cases hn2 : r2.getD nc "" = r.getD nc ""
                · have hdm2 : dmem (dremove ds (r.getD nc "")) (r2.getD nc "") = false := by
                    rw [hn2, dmem, dlookup_dremove_self ds _ hnd]
                    rfl
                  have hhead : (r.getD nc "" == r2.getD nc "") = true :=
                    beq_iff_eq.mpr hn2.symm
                  have hfo : firstOcc nc (r :: rows.filter (wfRow nc cc)) (i + 1) r2 = false := by
                    rw [firstOcc, htake, List.any_cons, hhead, Bool.true_or]
                    rfl
                  rw [hdm2, hfo, Bool.false_and, Bool.and_false]
                  simp
                · have hdm2 : dmem (dremove ds (r.getD nc "")) (r2.getD nc "") =
                      dmem ds (r2.getD nc "") := by
                    rw [dmem, dmem, dlookup_dremove_ne ds _ _ hn2]
                  have hhead : (r.getD nc "" == r2.getD nc "") = false :=
                    beq_eq_false_iff_ne.mpr (fun hh => hn2 hh.symm)
                  have hfo : firstOcc nc (r :: rows.filter (wfRow nc cc)) (i + 1) r2 =
                      firstOcc nc (rows.filter (wfRow nc cc)) i r2 := by
                    rw [firstOcc, firstOcc, htake, List.any_cons, hhead, Bool.false_or]
                  have hbump : bumpRow nc cc (dremove ds (r.getD nc "")) r2 =
                      bumpRow nc cc ds r2 := by
                    rw [bumpRow, bumpRow, dGetD, dlookup_dremove_ne ds _ _ hn2, dGetD]
                  rw [hdm2, hfo, hbump]

/-! ## Evaluation equations for `write_new_trades` and a whole run -/

theorem writeNewTrades_eq_none_none (st : InvState) (w : World)
    (hw : pyAnyDict st.words = false) (hi : pyAnyDict st.items = false) :
    writeNewTrades st w = ({ w with historyFile := some (some st.history) }, none) := by
  simp only [writeNewTrades, mergeItemsPart, hw, hi, Bool.false_eq_true, if_false]

theorem writeNewTrades_eq_none_ok (st : InvState) (w : World) (out : List (List String))
    (hw : pyAnyDict st.words = false) (hi : pyAnyDict st.items = true)
    (hm : addCountsToCsv itemNameColumn itemCountColumn w.itemsCsv st.items = .ok out) :
    writeNewTrades st w =
      ({ w with historyFile := some (some st.history), itemsCsv := out }, none) := by
  simp only [writeNewTrades, mergeItemsPart, hw, hi, Bool.false_eq_true, if_false, if_true, hm]

theorem writeNewTrades_eq_none_err (st : InvState) (w : World) (e : MergeErr)
    (hw : pyAnyDict st.words = false) (hi : pyAnyDict st.items = true)
    (hm : addCountsToCsv itemNameColumn itemCountColumn w.itemsCsv st.items = .error e) :
    writeNewTrades st w =
      ({ w with historyFile := some (some st.history) }, some (.mergeFailure e)) := by
  simp only [writeNewTrades, mergeItemsPart, hw, hi, Bool.false_eq_true, if_false, if_true, hm]

theorem writeNewTrades_eq_werr (st : InvState) (w : World) (e : MergeErr)
    (hw : pyAnyDict st.words = true)
    (hm : addCountsToCsv wordNameColumn wordCountColumn w.wordsCsv st.words = .error e) :
    writeNewTrades st w =
      ({ w with historyFile := some (some st.history) }, some (.mergeFailure e)) := by
  simp only [writeNewTrades, hw, if_true, hm]

theorem writeNewTrades_eq_wok_none (st : InvState) (w : World) (outw : List (List String))
    (hw : pyAnyDict st.words = true)
    (hm : addCountsToCsv wordNameColumn wordCountColumn w.wordsCsv st.words = .ok outw)
    (hi : pyAnyDict st.items = false) :
    writeNewTrades st w =
      ({ w with historyFile := some (some st.history), wordsCsv := outw }, none) := by
  simp only [writeNewTrades, mergeItemsPart, hw, if_true, hm, hi, Bool.false_eq_true, if_false]

theorem writeNewTrades_eq_wok_ok (st : InvState) (w : World)
    (outw outi : List (List String)) (hw : pyAnyDict st.words = true)
    (hm : addCountsToCsv wordNameColumn wordCountColumn w.wordsCsv st.words = .ok outw)
    (hi : pyAnyDict st.items = true)
    (hmi : addCountsToCsv itemNameColumn itemCountColumn w.itemsCsv st.items = .ok outi) :
    writeNewTrades st w =
      ({ w with
          historyFile := some (some st.history)
          wordsCsv := outw
          itemsCsv := outi }, none) := by
  simp only [writeNewTrades, mergeItemsPart, hw, if_true, hm, hi, hmi]

theorem writeNewTrades_eq_wok_err (st : InvState) (w : World)
    (outw : List (List String)) (e : MergeErr) (hw : pyAnyDict st.words = true)
    (hm : addCountsToCsv wordNameColumn wordCountColumn w.wordsCsv st.words = .ok outw)
    (hi : pyAnyDict st.items = true)
    (hmi : addCountsToCsv itemNameColumn itemCountColumn w.itemsCsv st.items = .error e) :
    writeNewTrades st w =
      ({ w with historyFile := some (some st.history), wordsCsv := outw },
        some (.mergeFailure e)) := by
  simp only [writeNewTrades, mergeItemsPart, hw, if_true, hm, hi, hmi]

theorem writeNewTrades_historyFile (st : InvState) (w : World) :
    (writeNewTrades st w).1.historyFile = some (some st.history) := by
  by_cases hw : pyAnyDict st.words
  · cases hm : addCountsToCsv wordNameColumn wordCountColumn w.wordsCsv st.words with
    | error e => rw [writeNewTrades_eq_werr st w e hw hm]
    | ok outw =>
      by_cases hi : pyAnyDict st.items
      · cases hmi : addCountsToCsv itemNameColumn itemCountColumn w.itemsCsv st.items with
        | error e => rw [writeNewTrades_eq_wok_err st w outw e hw hm hi hmi]
        | ok outi => rw [writeNewTrades_eq_wok_ok st w outw outi hw hm hi hmi]
      · rw [writeNewTrades_eq_wok_none st w outw hw hm (Bool.of_not_eq_true hi)]
  · by_cases hi : pyAnyDict st.items
    · cases hmi : addCountsToCsv itemNameColumn itemCountColumn w.itemsCsv st.items with
      | error e => rw [writeNewTrades_eq_none_err st w e (Bool.of_not_eq_true hw) hi hmi]
      | ok outi => rw [writeNewTrades_eq_none_ok st w outi (Bool.of_not_eq_true hw) hi hmi]
    · rw [writeNewTrades_eq_none_none st w (Bool.of_not_eq_true hw) (Bool.of_not_eq_true hi)]

theorem writeNewTrades_logs (st : InvState) (w : World) :
    (writeNewTrades st w).1.logs = w.logs := by
  by_cases hw : pyAnyDict st.words
  · cases hm : addCountsToCsv wordNameColumn wordCountColumn w.wordsCsv st.words with
    | error e => rw [writeNewTrades_eq_werr st w e hw hm]
    | ok outw =>
      by_cases hi : pyAnyDict st.items
      · cases hmi : addCountsToCsv itemNameColumn itemCountColumn w.itemsCsv st.items with
        | error e => rw [writeNewTrades_eq_wok_err st w outw e hw hm hi hmi]
        | ok outi => rw [writeNewTrades_eq_wok_ok st w outw outi hw hm hi hmi]
      · rw [writeNewTrades_eq_wok_none st w outw hw hm (Bool.of_not_eq_true hi)]
  · by_cases hi : pyAnyDict st.items
    · cases hmi : addCountsToCsv itemNameColumn itemCountColumn w.itemsCsv st.items with
      | error e => rw [writeNewTrades_eq_none_err st w e (Bool.of_not_eq_true hw) hi hmi]
      | ok outi => rw [writeNewTrades_eq_none_ok st w outi (Bool.of_not_eq_true hw) hi hmi]
    · rw [writeNewTrades_eq_none_none st w (Bool.of_not_eq_true hw) (Bool.of_not_eq_true hi)]

theorem runInventory_load_fail (w : World) (h : w.historyFile = some none) :
    runInventory w = ⟨w, 0, some .loadFailure⟩ := by
  rw [runInventory, h]
  rfl

theorem runInventory_eq (w : World) (h0 : History)
    (hl : loadHistory w.historyFile = some h0) :
    runInventory w =
      ⟨(writeNewTrades (updateScan ⟨h0, [], []⟩ w.logs).1 w).1,
        (updateScan ⟨h0, [], []⟩ w.logs).2,
        (writeNewTrades (updateScan ⟨h0, [], []⟩ w.logs).1 w).2⟩ := by
  rw [runInventory, hl]

/-! ## Order lemmas for the checkpoint cutoff -/

theorem getLastD_append_ne_nil (a b : List Nat) (hb : b ≠ []) :
    (a ++ b).getLastD 0 = b.getLastD 0 := by
  rw [List.getLastD_eq_getLast?, List.getLastD_eq_getLast?, List.getLast?_append]
  cases hl : b.getLast? with
  | none => exact absurd (List.getLast?_eq_none_iff.mp hl) hb
  | some y => rfl

theorem getLast?_of_getLastD (l : List Nat) (hb : l ≠ []) :
    l.getLast? = some (l.getLastD 0) := by
  rw [List.getLastD_eq_getLast?]
  cases hl : l.getLast? with
  | none => exact absurd (List.getLast?_eq_none_iff.mp hl) hb
  | some y => rfl

theorem getLastD_mem (l : List Nat) (hb : l ≠ []) : l.getLastD 0 ∈ l := by
  induction l with
  | nil => exact absurd rfl hb
  | cons a l ih =>
    cases l with
    | nil => simp [List.getLastD]
    | cons b l2 =>
      have h2 : (b :: l2) ≠ [] := by simp
      have heq : (a :: b :: l2).getLastD 0 = (b :: l2).getLastD 0 := by
        rw [List.getLastD_eq_getLast?, List.getLastD_eq_getLast?, List.getLast?_cons_cons]
      rw [heq]
      exact List.mem_cons_of_mem _ (ih h2)

theorem chain_le_getLastD (l : List Nat) (h : List.Chain' (· ≤ ·) l) :
    ∀ x ∈ l, x ≤ l.getLastD 0 := by
  induction l with
  | nil => simp
  | cons a l ih =>
    intro x hx
    cases l with
    | nil =>
      simp at hx
      simp [hx, List.getLastD]
    | cons b l2 =>
      rw [List.chain'_cons] at h
      have heq : (a :: b :: l2).getLastD 0 = (b :: l2).getLastD 0 := by
        rw [List.getLastD_eq_getLast?, List.getLastD_eq_getLast?, List.getLast?_cons_cons]
      rw [heq]
      rcases List.mem_cons.mp hx with hx | hx
      · subst hx
        exact le_trans h.1 (ih h.2 b (by simp))
      · exact ih h.2 x hx

/-- After appending the beyond-cutoff timestamps (taken sorted) to the old
checkpoint, the new cutoff bounds every scanned trade timestamp. -/
theorem cutoff_max_after (c0 : Nat) (ts : List Nat) (hsort : List.Chain' (· ≤ ·) ts)
    (h0 : List Nat) (hlast : h0.getLastD 0 = c0) :
    ∀ t ∈ ts, t ≤ (h0 ++ ts.filter (fun t => decide (c0 < t))).getLastD 0 := by
  intro t ht
  by_cases hf : ts.filter (fun t => decide (c0 < t)) = []
  · rw [hf, List.append_nil, hlast]
    by_cases hct : c0 < t
    · exfalso
      have : t ∈ ts.filter (fun t => decide (c0 < t)) :=
        List.mem_filter.mpr ⟨ht, by simpa using hct⟩
      rw [hf] at this
      simp at this
    · omega
  · rw [getLastD_append_ne_nil _ _ hf]
    have hfs : List.Chain' (· ≤ ·) (ts.filter (fun t => decide (c0 < t))) :=
      hsort.sublist (List.filter_sublist ts)
    by_cases hct : c0 < t
    · exact chain_le_getLastD _ hfs t (List.mem_filter.mpr ⟨ht, by simpa using hct⟩)
    · have hmem := getLastD_mem _ hf
      have hgt := of_decide_eq_true (List.mem_filter.mp hmem).2
      omega

/-- Sortedness of the appended checkpoint, when the old one is sorted and
the scanned trade timestamps arrive in non-decreasing order. -/
theorem chain_append_filter (h0 : List Nat) (ts : List Nat) (c0 : Nat)
    (hc0 : h0.getLastD 0 = c0) (hh : List.Chain' (· ≤ ·) h0)
    (hts : List.Chain' (· ≤ ·) ts) :
    List.Chain' (· ≤ ·) (h0 ++ ts.filter (fun t => decide (c0 < t))) := by
  rw [List.chain'_append]
  refine ⟨hh, hts.sublist (List.filter_sublist ts), ?_⟩
  intro x hx y hy
  have hne : h0 ≠ [] := by
    intro hh0
    rw [hh0] at hx
    simp at hx
  rw [getLast?_of_getLastD h0 hne, hc0] at hx
  simp only [Option.mem_def, Option.some.injEq] at hx
  subst hx
  have hy2 : y ∈ ts.filter (fun t => decide (c0 < t)) := List.mem_of_mem_head? hy
  have hcy := of_decide_eq_true (List.mem_filter.mp hy2).2
  omega

/-! ## The claims -/

/-- C8: if the persisted checkpoint file exists but is corrupt, loading it
fails fatally: `pickle.load` raises out of `Inventory.__init__`, the run
aborts with an error, and the file system — both tabular inventory files
included — is untouched (no silent fallback to a fresh checkpoint). -/
theorem c8_corrupt_checkpoint_fatal (w : World) (h : w.historyFile = some none) :
    (runInventory w).err = some .loadFailure ∧ (runInventory w).world = w := by
  rw [runInventory_load_fail w h]
  exact ⟨rfl, rfl⟩

/-- Witness for C8 at a concrete corrupt-checkpoint world. -/
theorem c8_witness :
    (runInventory ⟨[], some none, [["x"]], [["y"]]⟩).err = some .loadFailure ∧
      (runInventory ⟨[], some none, [["x"]], [["y"]]⟩).world =
        ⟨[], some none, [["x"]], [["y"]]⟩ :=
  c8_corrupt_checkpoint_fatal ⟨[], some none, [["x"]], [["y"]]⟩ rfl

/-- C10: when delta keys remain unconsumed after the row pass (as with an
empty input file) and the maximum row width does not exceed
`max name_column count_column`, the append loop's item assignment raises
`IndexError` instead of producing appended rows. -/
theorem c10_append_crash (nc cc : Nat) (rows : List (List String))
    (ds : List (String × Nat)) (o : List (List String)) (lf : List (String × Nat))
    (hpr : processRows nc cc rows ds = .ok (o, lf)) (hlf : lf ≠ [])
    (hw : maxWidth rows ≤ max nc cc) :
    addCountsToCsv nc cc rows ds = .error .indexError :=
  addCountsToCsv_indexError nc cc rows ds o lf hpr hlf hw

/-- Witness for C10: an empty item inventory file and one pending key. -/
theorem c10_witness : addCountsToCsv 1 2 [] [("Ring", 2)] = .error .indexError :=
  c10_append_crash 1 2 [] [("Ring", 2)] [] [("Ring", 2)] rfl (by decide) (by decide)

/-- C4: a subject with a recorded count in the secondary (words) category —
established in the current run (`run2`) or in a prior run (`run1`), both
starting from the fresh per-run state — has every later trade event
routed to the secondary category's map, with the primary map untouched,
whether or not its name matches the secondary patterns.  (For a prior-run
subject this holds because membership in the per-run words dict is only
ever established through a pattern match, and the patterns are a pure
function of the name.) -/
theorem c4_sticky_classification (run1 run2 : List (Nat × Trade)) (s : String)
    (hrec : dmem (classifierRun run1).words s = true ∨
      dmem (classifierRun run2).words s = true)
    (t : Nat) (p : String) :
    (processTrade (classifierRun run2) t ⟨p, s⟩).words =
      dincr (classifierRun run2).words s ∧
    (processTrade (classifierRun run2) t ⟨p, s⟩).items = (classifierRun run2).items := by
  have hfresh : wordsInv (⟨History.init, [], []⟩ : InvState) := by
    intro k hk
    simp [dmem, dlookup] at hk
  have hinv1 : wordsInv (classifierRun run1) := wordsInv_foldl run1 _ hfresh
  have hcl : (matchesWordPattern s || dmem (classifierRun run2).words s) = true := by
    rcases hrec with h | h
    · rw [hinv1 s h]
      rfl
    · rw [h, Bool.or_true]
  rw [processTrade, if_pos hcl]
  exact ⟨rfl, rfl⟩

/-- Witness for C4: "Spell: Gate" was counted secondary in a prior run;
the next run (fresh dicts) still classifies it secondary. -/
theorem c4_witness :
    (processTrade (classifierRun []) 5 ⟨"Q", "Spell: Gate"⟩).words =
      dincr (classifierRun []).words "Spell: Gate" ∧
    (processTrade (classifierRun []) 5 ⟨"Q", "Spell: Gate"⟩).items =
      (classifierRun []).items :=
  c4_sticky_classification [(1, ⟨"P", "Spell: Gate"⟩)] [] "Spell: Gate"
    (Or.inl (by decide)) 5 "Q"

/-! ## C3: what actually happens to narrow rows -/

theorem foldl_max_init (l : List (List String)) :
    ∀ a : Nat, l.foldl (fun x r => max x r.length) a =
      max a (l.foldl (fun x r => max x r.length) 0) := by
  induction l with
  | nil => intro a; simp
  | cons r l ih =>
    intro a
    rw [List.foldl_cons, List.foldl_cons]
    rw [ih (max a r.length), ih (max 0 r.length), Nat.zero_max, Nat.max_assoc]

theorem maxWidth_cons (r : List String) (l : List (List String)) :
    maxWidth (r :: l) = max r.length (maxWidth l) := by
  show (r :: l).foldl (fun x r2 => max x r2.length) 0 =
    max r.length (l.foldl (fun x r2 => max x r2.length) 0)
  rw [List.foldl_cons, foldl_max_init l, Nat.zero_max]

theorem maxWidth_append (a b : List (List String)) :
    maxWidth (a ++ b) = max (maxWidth a) (maxWidth b) := by
  induction a with
  | nil =>
    rw [List.nil_append]
    have h0 : maxWidth [] = 0 := rfl
    rw [h0, Nat.zero_max]
  | cons r a ih =>
    rw [List.cons_append, maxWidth_cons, maxWidth_cons, ih, Nat.max_assoc]

/-- The row pass treats a narrow row exactly as if it were absent. -/
theorem processRows_drop_narrow (nc cc : Nat) (r : List String)
    (h : wfRow nc cc r = false) (post : List (List String)) :
    ∀ (pre : List (List String)) ds,
      processRows nc cc (pre ++ r :: post) ds = processRows nc cc (pre ++ post) ds := by
  intro pre
  induction pre with
  | nil =>
    intro ds
    rw [List.nil_append, List.nil_append, processRows_cons_narrow nc cc r post ds h]
  | cons q pre ih =>
    intro ds
    rw [List.cons_append, List.cons_append]
    cases hwf : wfRow nc cc q with
    | false =>
      rw [processRows_cons_narrow nc cc q _ ds hwf, processRows_cons_narrow nc cc q _ ds hwf]
      exact ih ds
    | true =>
      cases hhit : dlookup ds (q.getD nc "") with
      | none =>
        rw [processRows_cons_miss nc cc q _ ds hwf hhit,
          processRows_cons_miss nc cc q _ ds hwf hhit, ih ds]
      | some d =>
        cases hv : pyInt (q.getD cc "") with
        | none =>
          rw [processRows_cons_hit_bad nc cc q _ ds d hwf hhit hv,
            processRows_cons_hit_bad nc cc q _ ds d hwf hhit hv]
        | some v =>
          rw [processRows_cons_hit nc cc q _ ds d v hwf hhit hv,
            processRows_cons_hit nc cc q _ ds d v hwf hhit hv,
            ih (dremove ds (q.getD nc ""))]

/-- Counterexample to C3 as stated: the single input row `["a"]` is too
narrow for name column 1 / count column 2; the merge emits an empty
output — the row is NOT preserved in the output file. -/
theorem c3_counterexample :
    addCountsToCsv 1 2 [["a"]] [] = .ok [] ∧
      ["a"] ∉ ([] : List (List String)) :=
  ⟨rfl, by simp⟩

/-- C3 as amended: a row with too few columns to read the name and count
positions is skipped entirely — the merge behaves exactly as if the row
were absent (in particular the row is matched to no delta key and is
dropped from the output file, `writer.writerow` being unreachable), and a
diagnostic carrying the joined row is emitted. -/
theorem c3_amended (nc cc : Nat) (pre post : List (List String)) (r : List String)
    (ds : List (String × Nat)) (h : wfRow nc cc r = false) :
    addCountsToCsv nc cc (pre ++ r :: post) ds = addCountsToCsv nc cc (pre ++ post) ds ∧
      String.intercalate "," r ∈ mergeWarnings nc cc (pre ++ r :: post) := by
  constructor
  · rw [addCountsToCsv, addCountsToCsv, processRows_drop_narrow nc cc r h post pre ds]
    cases hpr : processRows nc cc (pre ++ post) ds with
    | error e => rfl
    | ok p =>
      obtain ⟨o, lf⟩ := p
      have hm1 : maxWidth (pre ++ r :: post) = max (maxWidth (pre ++ post)) r.length := by
        rw [maxWidth_append, maxWidth_cons, maxWidth_append]
        simp [Nat.max_comm, Nat.max_assoc, Nat.max_left_comm]
      have hr : r.length ≤ max nc cc := by
        have := of_decide_eq_false h
        omega
      cases lf with
      | nil => rfl
      | cons q lf2 =>
        by_cases hc2 : nc < maxWidth (pre ++ post) ∧ cc < maxWidth (pre ++ post)
        · have hmlt : max nc cc < maxWidth (pre ++ post) := Nat.max_lt.mpr hc2
          have hm12 : maxWidth (pre ++ r :: post) = maxWidth (pre ++ post) := by
            rw [hm1]
            exact Nat.max_eq_left (by omega)
          rw [hm12]
        · have hc1 : ¬ (nc < maxWidth (pre ++ r :: post) ∧
              cc < maxWidth (pre ++ r :: post)) := by
            intro hcc
            have hmlt : max nc cc < maxWidth (pre ++ r :: post) := Nat.max_lt.mpr hcc
            rw [hm1] at hmlt
            rcases Nat.le_total (maxWidth (pre ++ post)) r.length with hle | hle
            · rw [Nat.max_eq_right hle] at hmlt
              omega
            · rw [Nat.max_eq_left hle] at hmlt
              exact hc2 (Nat.max_lt.mp hmlt)
          simp only [appendNewRows_err nc cc _ hc1 (q :: lf2) (by simp),
            appendNewRows_err nc cc _ hc2 (q :: lf2) (by simp)]
  · rw [mergeWarnings]
    refine List.mem_map.mpr ⟨r, List.mem_filter.mpr ⟨by simp, by simp [h]⟩, rfl⟩

/-- Witness for C3's amended statement at a concrete narrow row. -/
theorem c3_witness :
    (addCountsToCsv 1 2 ([] ++ ["a"] :: [["b", "Ring", "3"]]) [("Ring", 2)] =
      addCountsToCsv 1 2 ([] ++ [["b", "Ring", "3"]]) [("Ring", 2)] ∧
      String.intercalate "," ["a"] ∈ mergeWarnings 1 2 ([] ++ ["a"] :: [["b", "Ring", "3"]])) :=
  c3_amended 1 2 [] [["b", "Ring", "3"]] ["a"] [("Ring", 2)] (by decide)

/-! ## C7 and C9 -/

theorem histFileTs_of (w : World) (h : History) (hh : w.historyFile = some (some h)) :
    histFileTs w = h.timestamps := by
  rw [histFileTs, hh]

theorem histFileLast_of (w : World) (h : History) (hh : w.historyFile = some (some h)) :
    histFileLast w = histLast h := by
  rw [histFileLast, hh]

/-- Shared helper: when the trade-line timestamps are non-decreasing in
scan order, a second run over the world a run leaves behind extracts zero
events and leaves both tabular files unchanged, whether or not the first
run's merges succeeded (the checkpoint is persisted before the merges, so
the cutoff the second run loads is maximal). -/
theorem run_twice_idempotent (w : World)
    (hsort : List.Chain' (· ≤ ·) (tradeTss (allLines w.logs))) :
    (runInventory (runInventory w).world).newTrades = 0 ∧
      (runInventory (runInventory w).world).world.wordsCsv =
        (runInventory w).world.wordsCsv ∧
      (runInventory (runInventory w).world).world.itemsCsv =
        (runInventory w).world.itemsCsv := by
  cases hl : loadHistory w.historyFile with
  | none =>
    have hcorrupt : w.historyFile = some none := by
      cases hf : w.historyFile with
      | none => rw [hf] at hl; cases hl
      | some o =>
        cases o with
        | none => rfl
        | some hh => rw [hf] at hl; cases hl
    have houter := runInventory_load_fail w hcorrupt
    rw [houter]
    show (runInventory w).newTrades = 0 ∧
      (runInventory w).world.wordsCsv = w.wordsCsv ∧
      (runInventory w).world.itemsCsv = w.itemsCsv
    rw [houter]
    exact ⟨rfl, rfl, rfl⟩
  | some h0 =>
    have hhf := writeNewTrades_historyFile (updateScan ⟨h0, [], []⟩ w.logs).1 w
    have hlogs := writeNewTrades_logs (updateScan ⟨h0, [], []⟩ w.logs).1 w
    have hw1 : (runInventory w).world =
        (writeNewTrades (updateScan ⟨h0, [], []⟩ w.logs).1 w).1 := by
      rw [runInventory_eq w h0 hl]
    have htss : ((updateScan ⟨h0, [], []⟩ w.logs).1).history.timestamps =
        h0.timestamps ++
          (tradeTss (allLines w.logs)).filter (fun t => decide (histLast h0 < t)) := by
      rw [updateScan_eq]
      show ((newEvents (histLast h0) (allLines w.logs)).foldl processTradePair
        ⟨h0, [], []⟩).history.timestamps = _
      rw [foldl_history_ts, map_fst_newEvents]
    have hcut : ∀ t ∈ tradeTss (allLines w.logs),
        t ≤ histLast ((updateScan ⟨h0, [], []⟩ w.logs).1).history := by
      intro t ht
      rw [histLast, htss]
      exact cutoff_max_after (histLast h0) _ hsort h0.timestamps rfl t ht
    have hl2 : loadHistory ((runInventory w).world).historyFile =
        some ((updateScan ⟨h0, [], []⟩ w.logs).1).history := by
      rw [hw1, hhf]
      rfl
    have hlogs2 : ((runInventory w).world).logs = w.logs := by
      rw [hw1, hlogs]
    have hevs2 : newEvents (histLast ((updateScan ⟨h0, [], []⟩ w.logs).1).history)
        (allLines ((runInventory w).world).logs) = [] := by
      rw [hlogs2]
      exact newEvents_eq_nil _ _ hcut
    have hscan2 : updateScan ⟨((updateScan ⟨h0, [], []⟩ w.logs).1).history, [], []⟩
        ((runInventory w).world).logs =
        (⟨((updateScan ⟨h0, [], []⟩ w.logs).1).history, [], []⟩, 0) := by
      rw [updateScan_eq]
      show ((newEvents (histLast ((updateScan ⟨h0, [], []⟩ w.logs).1).history)
          (allLines ((runInventory w).world).logs)).foldl processTradePair
          ⟨((updateScan ⟨h0, [], []⟩ w.logs).1).history, [], []⟩,
        (newEvents (histLast ((updateScan ⟨h0, [], []⟩ w.logs).1).history)
          (allLines ((runInventory w).world).logs)).length) = _
      rw [hevs2]
      rfl
    have hwnt2 := writeNewTrades_eq_none_none
      ⟨((updateScan ⟨h0, [], []⟩ w.logs).1).history, [], []⟩
      ((runInventory w).world) rfl rfl
    have hr2 := runInventory_eq ((runInventory w).world) _ hl2
    refine ⟨?_, ?_, ?_⟩
    · rw [hr2]
      show (updateScan ⟨((updateScan ⟨h0, [], []⟩ w.logs).1).history, [], []⟩
        ((runInventory w).world).logs).2 = 0
      rw [hscan2]
    · rw [hr2]
      show (writeNewTrades (updateScan ⟨((updateScan ⟨h0, [], []⟩ w.logs).1).history, [], []⟩
        ((runInventory w).world).logs).1 ((runInventory w).world)).1.wordsCsv = _
      rw [hscan2, hwnt2]
    · rw [hr2]
      show (writeNewTrades (updateScan ⟨((updateScan ⟨h0, [], []⟩ w.logs).1).history, [], []⟩
        ((runInventory w).world).logs).1 ((runInventory w).world)).1.itemsCsv = _
      rw [hscan2, hwnt2]

/-- Counterexample to C7 as stated: on `c7World` the run fails during the
tabular merge (`IndexError` appending to the empty item file), the item
counts are NOT merged (the file is unchanged), and yet the persisted
checkpoint cutoff has advanced to 1, the timestamp of the unmerged trade
line — so the retry extracts zero events instead of reprocessing the
failed run. -/
theorem c7_counterexample :
    (runInventory c7World).err = some (RunErr.mergeFailure MergeErr.indexError) ∧
      (runInventory c7World).world.itemsCsv = [] ∧
      histFileLast (runInventory c7World).world = 1 ∧
      (runInventory (runInventory c7World).world).newTrades = 0 := by
  decide

/-- C7 as amended: `write_new_trades` pickles the history BEFORE merging
either tabular file, so a run that fails during the tabular merge step has
already persisted the checkpoint carrying the full post-scan history; and
when the trade-line timestamps are non-decreasing in scan order, the
persisted cutoff is then at or beyond every scanned trade line, merged or
not, so a retry extracts zero events — the failed run's events are not
reprocessed and their counts are permanently lost. -/
theorem c7_amended (w : World) (e : MergeErr)
    (h : (runInventory w).err = some (.mergeFailure e)) :
    ∃ h0, loadHistory w.historyFile = some h0 ∧
      (runInventory w).world.historyFile =
        some (some (updateScan ⟨h0, [], []⟩ w.logs).1.history) ∧
      (List.Chain' (· ≤ ·) (tradeTss (allLines w.logs)) →
        (runInventory (runInventory w).world).newTrades = 0) := by
  cases hl : loadHistory w.historyFile with
  | none =>
    have hcorrupt : w.historyFile = some none := by
      cases hf : w.historyFile with
      | none => rw [hf] at hl; cases hl
      | some o =>
        cases o with
        | none => rfl
        | some hh => rw [hf] at hl; cases hl
    rw [runInventory_load_fail w hcorrupt] at h
    simp at h
  | some h0 =>
    refine ⟨h0, rfl, ?_, ?_⟩
    · rw [runInventory_eq w h0 hl]
      exact writeNewTrades_historyFile _ w
    · intro hsort
      exact (run_twice_idempotent w hsort).1

/-- Witness for C7's amended statement on the failing world, whose single
trade line is trivially in sorted scan order. -/
theorem c7_witness :
    ∃ h0, loadHistory c7World.historyFile = some h0 ∧
      (runInventory c7World).world.historyFile =
        some (some (updateScan ⟨h0, [], []⟩ c7World.logs).1.history) ∧
      (List.Chain' (· ≤ ·) (tradeTss (allLines c7World.logs)) →
        (runInventory (runInventory c7World).world).newTrades = 0) :=
  c7_amended c7World MergeErr.indexError (by decide)

/-- Counterexample to C9 as stated: scanning two sources whose time ranges
overlap records the timestamps `[0, 2, 1]` — not non-decreasing in
insertion order. -/
theorem c9_counterexample :
    histFileTs (runInventory c9World).world = [0, 2, 1] ∧
      ¬ List.Chain' (· ≤ ·) (histFileTs (runInventory c9World).world) := by
  have h1 : histFileTs (runInventory c9World).world = [0, 2, 1] := by decide
  refine ⟨h1, ?_⟩
  rw [h1]
  intro hch
  rw [List.chain'_cons, List.chain'_cons] at hch
  rcases hch with ⟨h01, h21, hrest⟩
  omega

/-- C9 as amended: the checkpoint sequence is append-only (`record`
appends, and a run appends exactly the beyond-cutoff trade timestamps in
scan order) and never empty; its timestamps are non-decreasing PROVIDED
the loaded checkpoint was sorted and the trade timestamps, in scan order
across all sources, are non-decreasing — in general (sources with
overlapping time ranges) the recorded order is not non-decreasing. -/
theorem c9_amended (w : World) (h0 : History)
    (hl : loadHistory w.historyFile = some h0) (hne : h0.timestamps ≠ []) :
    (∀ (hh : History) (t : Nat) (tr : Trade),
      (History.record hh t tr).timestamps = hh.timestamps ++ [t]) ∧
    histFileTs (runInventory w).world =
      h0.timestamps ++
        (tradeTss (allLines w.logs)).filter (fun t => decide (histLast h0 < t)) ∧
    histFileTs (runInventory w).world ≠ [] ∧
    (List.Chain' (· ≤ ·) h0.timestamps →
      List.Chain' (· ≤ ·) (tradeTss (allLines w.logs)) →
      List.Chain' (· ≤ ·) (histFileTs (runInventory w).world)) := by
  have hst1 : (updateScan ⟨h0, [], []⟩ w.logs).1 =
      (newEvents (histLast h0) (allLines w.logs)).foldl processTradePair
        ⟨h0, [], []⟩ := by
    rw [updateScan_eq]
  have heq : histFileTs (runInventory w).world =
      h0.timestamps ++
        (tradeTss (allLines w.logs)).filter (fun t => decide (histLast h0 < t)) := by
    rw [runInventory_eq w h0 hl]
    have hhf := writeNewTrades_historyFile ((updateScan ⟨h0, [], []⟩ w.logs).1) w
    rw [histFileTs_of _ _ hhf, hst1, foldl_history_ts, map_fst_newEvents]
  refine ⟨fun hh t tr => rfl, heq, ?_, ?_⟩
  · rw [heq]
    intro hnil
    exact hne (List.append_eq_nil.mp hnil).1
  · intro hs1 hs2
    rw [heq]
    exact chain_append_filter h0.timestamps _ (histLast h0) rfl hs1 hs2

/-- Witness for C9's amended statement on a sorted single-source world. -/
theorem c9_witness :
    (∀ (hh : History) (t : Nat) (tr : Trade),
      (History.record hh t tr).timestamps = hh.timestamps ++ [t]) ∧
    histFileTs (runInventory c9GoodWorld).world =
      History.init.timestamps ++
        (tradeTss (allLines c9GoodWorld.logs)).filter
          (fun t => decide (histLast History.init < t)) ∧
    histFileTs (runInventory c9GoodWorld).world ≠ [] ∧
    (List.Chain' (· ≤ ·) History.init.timestamps →
      List.Chain' (· ≤ ·) (tradeTss (allLines c9GoodWorld.logs)) →
      List.Chain' (· ≤ ·) (histFileTs (runInventory c9GoodWorld).world)) :=
  c9_amended c9GoodWorld History.init rfl (by decide)

/-! ## C6: fresh-state bootstrap -/

theorem getLastD_irrel (l : List LogLine) (hne : l ≠ []) (x y : LogLine) :
    l.getLastD x = l.getLastD y := by
  rw [List.getLastD_eq_getLast?, List.getLastD_eq_getLast?]
  cases hl : l.getLast? with
  | none => exact absurd (List.getLast?_eq_none_iff.mp hl) hne
  | some z => rfl

theorem getLastD_irrel_nat (l : List Nat) (hne : l ≠ []) (x y : Nat) :
    l.getLastD x = l.getLastD y := by
  rw [List.getLastD_eq_getLast?, List.getLastD_eq_getLast?]
  cases hl : l.getLast? with
  | none => exact absurd (List.getLast?_eq_none_iff.mp hl) hne
  | some z => rfl

/-- When every line has a timestamp, the last extracted timestamp is the
last line's. -/
theorem getLastD_cons_ne_nil_nat (a : Nat) (l : List Nat) (hne : l ≠ []) :
    (a :: l).getLastD 0 = l.getLastD 0 := by
  have hsplit : a :: l = [a] ++ l := rfl
  rw [hsplit, getLastD_append_ne_nil [a] l hne]

theorem filterMap_ts_getLastD (lines : List LogLine) (hne : lines ≠ [])
    (hsome : ∀ l ∈ lines, l.ts ≠ none) :
    (lines.filterMap LogLine.ts).getLastD 0 = ((lines.getLastD ⟨none, none⟩).ts).getD 0 := by
  induction lines with
  | nil => exact absurd rfl hne
  | cons l L ih =>
    cases hts : l.ts with
    | none => exact absurd hts (hsome l (by simp))
    | some t =>
      cases L with
      | nil =>
        simp [List.filterMap_cons, hts, List.getLastD]
      | cons l2 L2 =>
        have hL : (l2 :: L2) ≠ [] := by simp
        have hfm : (l2 :: L2).filterMap LogLine.ts ≠ [] := by
          cases hts2 : l2.ts with
          | none => exact absurd hts2 (hsome l2 (by simp))
          | some t2 =>
            rw [List.filterMap_cons, hts2]
            simp
        have hlhs : ((l :: l2 :: L2).filterMap LogLine.ts).getLastD 0 =
            ((l2 :: L2).filterMap LogLine.ts).getLastD 0 := by
          rw [List.filterMap_cons, hts]
          show (t :: (l2 :: L2).filterMap LogLine.ts).getLastD 0 = _
          rw [getLastD_cons_ne_nil_nat t _ hfm]
        have hrhs : (l :: l2 :: L2).getLastD ⟨none, none⟩ =
            (l2 :: L2).getLastD ⟨none, none⟩ := by
          rw [List.getLastD_eq_getLast?, List.getLastD_eq_getLast?, List.getLast?_cons_cons]
        rw [hlhs, hrhs]
        exact ih hL (fun x hx => hsome x (List.mem_cons_of_mem _ hx))

/-- C6: with no prior checkpoint file, `__init__` creates a fresh
checkpoint whose sentinel time `0` precedes every (positive) real log
timestamp; a first run over a single full log of trade lines then records
one event per line and leaves the persisted cutoff equal to the last
line's timestamp. -/
theorem c6_fresh_bootstrap (lines : List LogLine) (wcsv icsv : List (List String))
    (hne : lines ≠ [])
    (hall : ∀ l ∈ lines, ∃ t tr, l.ts = some t ∧ 0 < t ∧ l.trade = some tr) :
    loadHistory none = some History.init ∧
    (runInventory (singleLogWorld lines none wcsv icsv)).newTrades = lines.length ∧
    histFileLast (runInventory (singleLogWorld lines none wcsv icsv)).world =
      ((lines.getLastD ⟨none, none⟩).ts).getD 0 := by
  have hA : ∀ l ∈ lines, ∃ t tr, l.ts = some t ∧ l.trade = some tr := by
    intro l hl
    obtain ⟨t, tr, h1, _, h3⟩ := hall l hl
    exact ⟨t, tr, h1, h3⟩
  have hnew : ∀ t ∈ tradeTss lines, 0 < t := by
    intro t ht
    have ht2 : t ∈ lines.filterMap (fun l =>
        match l.ts, l.trade with
        | some t, some _ => some t
        | _, _ => none) := ht
    obtain ⟨l, hlm, hf⟩ := List.mem_filterMap.mp ht2
    obtain ⟨t', tr, hts, hpos, htr⟩ := hall l hlm
    simp only [hts, htr] at hf
    cases hf
    exact hpos
  have hAll : allLines (singleLogWorld lines none wcsv icsv).logs = lines := by
    simp [singleLogWorld, allLines]
  have nev := newEvents_all 0 lines hA hnew
  have hl0 : loadHistory (singleLogWorld lines none wcsv icsv).historyFile =
      some History.init := rfl
  have h2 : (updateScan ⟨History.init, [], []⟩
      (singleLogWorld lines none wcsv icsv).logs).2 = lines.length := by
    rw [updateScan_eq]
    show (newEvents (histLast History.init)
      (allLines (singleLogWorld lines none wcsv icsv).logs)).length = lines.length
    rw [hAll]
    show (newEvents 0 lines).length = lines.length
    exact nev.1
  have hfm_ne : lines.filterMap LogLine.ts ≠ [] := by
    intro hnil
    have hlen : (lines.filterMap LogLine.ts).length = lines.length := by
      rw [← nev.2.2, List.length_map]
      exact nev.1
    rw [hnil] at hlen
    exact hne (List.length_eq_zero.mp hlen.symm)
  refine ⟨rfl, ?_, ?_⟩
  · rw [runInventory_eq _ History.init hl0]
    exact h2
  · rw [runInventory_eq _ History.init hl0]
    have hhf := writeNewTrades_historyFile
      (updateScan ⟨History.init, [], []⟩ (singleLogWorld lines none wcsv icsv).logs).1
      (singleLogWorld lines none wcsv icsv)
    show histFileLast (writeNewTrades _ _).1 = _
    rw [histFileLast_of _ _ hhf]
    have hst1 : (updateScan ⟨History.init, [], []⟩
        (singleLogWorld lines none wcsv icsv).logs).1 =
        (newEvents (histLast History.init)
          (allLines (singleLogWorld lines none wcsv icsv).logs)).foldl
          processTradePair ⟨History.init, [], []⟩ := by
      rw [updateScan_eq]
    rw [histLast, hst1, foldl_history_ts]
    rw [hAll]
    show (History.init.timestamps ++
      (newEvents 0 lines).map Prod.fst).getLastD 0 = _
    rw [nev.2.2]
    rw [show History.init.timestamps = [0] from rfl]
    rw [getLastD_append_ne_nil [0] _ hfm_ne]
    exact filterMap_ts_getLastD lines hne (fun l hl => by
      obtain ⟨t, tr, h1, _, _⟩ := hall l hl
      rw [h1]
      simp)

/-- Witness for C6 on a one-line log. -/
theorem c6_witness :
    loadHistory none = some History.init ∧
    (runInventory (singleLogWorld [⟨some 3, some ⟨"P", "Sword"⟩⟩] none []
      [["a", "b", "c"]])).newTrades = ([⟨some 3, some ⟨"P", "Sword"⟩⟩] : List LogLine).length ∧
    histFileLast (runInventory (singleLogWorld [⟨some 3, some ⟨"P", "Sword"⟩⟩] none []
      [["a", "b", "c"]])).world =
      ((([⟨some 3, some ⟨"P", "Sword"⟩⟩] : List LogLine).getLastD ⟨none, none⟩).ts).getD 0 :=
  c6_fresh_bootstrap [⟨some 3, some ⟨"P", "Sword"⟩⟩] [] [["a", "b", "c"]] (by decide)
    (by
      intro l hl
      rw [List.mem_singleton] at hl
      subst hl
      exact ⟨3, ⟨"P", "Sword"⟩, rfl, by omega, rfl⟩)

/-! ## C5: re-running with no new lines -/

/-- Counterexample to C5 as stated: on `c5World` (two sources with
overlapping time ranges) the second run — with NO lines appended between
the runs — extracts one new event and rewrites the item inventory file,
because the persisted cutoff is the last RECORDED trade's timestamp (1),
not the maximum processed timestamp (2). -/
theorem c5_counterexample :
    (runInventory (runInventory c5World).world).newTrades = 1 ∧
      (runInventory (runInventory c5World).world).world.itemsCsv ≠
        (runInventory c5World).world.itemsCsv := by
  decide

/-- C5 as amended: running the scan twice with no new log lines is
idempotent PROVIDED the trade-line timestamps are non-decreasing in scan
order across the sources (so the last recorded timestamp is maximal): the
second run extracts zero events and leaves both tabular files exactly as
run 1 left them.  Without that proviso, re-extraction occurs
(`c5_counterexample`). -/
theorem c5_amended (w : World)
    (hsort : List.Chain' (· ≤ ·) (tradeTss (allLines w.logs))) :
    (runInventory (runInventory w).world).newTrades = 0 ∧
      (runInventory (runInventory w).world).world.wordsCsv =
        (runInventory w).world.wordsCsv ∧
      (runInventory (runInventory w).world).world.itemsCsv =
        (runInventory w).world.itemsCsv :=
  run_twice_idempotent w hsort

/-- Witness for C5's amended statement on a sorted single-source world. -/
theorem c5_witness :
    (runInventory (runInventory c9GoodWorld).world).newTrades = 0 ∧
      (runInventory (runInventory c9GoodWorld).world).world.wordsCsv =
        (runInventory c9GoodWorld).world.wordsCsv ∧
      (runInventory (runInventory c9GoodWorld).world).world.itemsCsv =
        (runInventory c9GoodWorld).world.itemsCsv :=
  c5_amended c9GoodWorld (by
    have heq : tradeTss (allLines c9GoodWorld.logs) = [1, 2] := by decide
    rw [heq]
    exact List.chain'_cons.mpr ⟨by omega, List.chain'_singleton 2⟩)

/-! ## C2: the merge guarantee -/

/-- C2: on a successful merge with distinct delta keys, every key is
reflected exactly once and no existing row is duplicated: the written rows
are the readable input rows in order, each one rewritten (count column
incremented by the key's delta) exactly when it is the FIRST readable row
whose name-column value is a pending key, and otherwise copied verbatim;
the keys consumed are exactly those named by some readable row; the
remaining keys each produce exactly one appended row; and every key's
recorded total grows by exactly its delta. -/
theorem c2_merge_reflects_each_key_once (nc cc : Nat) (hne : nc ≠ cc)
    (rows : List (List String)) (ds : List (String × Nat)) (out : List (List String))
    (hnd : (dkeys ds).Nodup)
    (h : addCountsToCsv nc cc rows ds = .ok out) :
    ∃ o lf,
      processRows nc cc rows ds = .ok (o, lf) ∧
      o.length = (rows.filter (wfRow nc cc)).length ∧
      (∀ i : Nat, o.get? i = (((rows.filter (wfRow nc cc)).get? i).map (fun r =>
        if dmem ds (r.getD nc "") && firstOcc nc (rows.filter (wfRow nc cc)) i r then
          bumpRow nc cc ds r
        else r))) ∧
      lf = ds.filter (fun p => !(rows.any (rowMatches nc cc p.1))) ∧
      out = o ++ lf.map (fun p => appendedRow nc cc (maxWidth rows) p.1 p.2) ∧
      (∀ k : String, keyTotal nc cc out k =
        keyTotal nc cc rows k + ((dGetD ds k : Nat) : Int)) := by
  obtain ⟨o, lf, hpr, hout, _⟩ := addCountsToCsv_ok_inv nc cc rows ds out h
  exact ⟨o, lf, hpr, processRows_length nc cc rows ds o lf hpr,
    processRows_get? nc cc rows ds o lf hnd hpr,
    processRows_leftover nc cc rows ds o lf hnd hpr, hout,
    fun k => addCountsToCsv_keyTotal nc cc hne rows ds out k hnd h⟩

/-- Witness for C2: `["b","Ring","3"]` with deltas Ring↦2, Rune↦4 merges
to `["b","Ring","5"]` plus one appended Rune row. -/
theorem c2_witness :
    ∃ o lf,
      processRows 1 2 [["b", "Ring", "3"]] [("Ring", 2), ("Rune", 4)] = .ok (o, lf) ∧
      o.length = ([["b", "Ring", "3"]].filter (wfRow 1 2)).length ∧
      (∀ i : Nat, o.get? i = ((([["b", "Ring", "3"]].filter (wfRow 1 2)).get? i).map (fun r =>
        if dmem [("Ring", 2), ("Rune", 4)] (r.getD 1 "") &&
            firstOcc 1 ([["b", "Ring", "3"]].filter (wfRow 1 2)) i r then
          bumpRow 1 2 [("Ring", 2), ("Rune", 4)] r
        else r))) ∧
      lf = [("Ring", 2), ("Rune", 4)].filter
        (fun p => !([["b", "Ring", "3"]].any (rowMatches 1 2 p.1))) ∧
      [["b", "Ring", "5"], ["", "Rune", "4"]] =
        o ++ lf.map (fun p => appendedRow 1 2 (maxWidth [["b", "Ring", "3"]]) p.1 p.2) ∧
      (∀ k : String, keyTotal 1 2 [["b", "Ring", "5"], ["", "Rune", "4"]] k =
        keyTotal 1 2 [["b", "Ring", "3"]] k +
          ((dGetD [("Ring", 2), ("Rune", 4)] k : Nat) : Int)) :=
  c2_merge_reflects_each_key_once 1 2 (by decide) [["b", "Ring", "3"]]
    [("Ring", 2), ("Rune", 4)] [["b", "Ring", "5"], ["", "Rune", "4"]]
    (by decide) rfl

/-! ## Accounting across one whole run (towards C1) -/

theorem writeNewTrades_none_spec (st : InvState) (w : World)
    (h : (writeNewTrades st w).2 = none) :
    ((pyAnyDict st.words = true ∧
        addCountsToCsv wordNameColumn wordCountColumn w.wordsCsv st.words =
          .ok (writeNewTrades st w).1.wordsCsv) ∨
      (pyAnyDict st.words = false ∧ (writeNewTrades st w).1.wordsCsv = w.wordsCsv)) ∧
    ((pyAnyDict st.items = true ∧
        addCountsToCsv itemNameColumn itemCountColumn w.itemsCsv st.items =
          .ok (writeNewTrades st w).1.itemsCsv) ∨
      (pyAnyDict st.items = false ∧ (writeNewTrades st w).1.itemsCsv = w.itemsCsv)) := by
  by_cases hw : pyAnyDict st.words
  · cases hm : addCountsToCsv wordNameColumn wordCountColumn w.wordsCsv st.words with
    | error e =>
      rw [writeNewTrades_eq_werr st w e hw hm] at h
      cases h
    | ok outw =>
      by_cases hi : pyAnyDict st.items
      · cases hmi : addCountsToCsv itemNameColumn itemCountColumn w.itemsCsv st.items with
        | error e =>
          rw [writeNewTrades_eq_wok_err st w outw e hw hm hi hmi] at h
          cases h
        | ok outi =>
          rw [writeNewTrades_eq_wok_ok st w outw outi hw hm hi hmi]
          exact ⟨Or.inl ⟨hw, rfl⟩, Or.inl ⟨hi, rfl⟩⟩
      · rw [writeNewTrades_eq_wok_none st w outw hw hm (Bool.of_not_eq_true hi)]
        exact ⟨Or.inl ⟨hw, rfl⟩, Or.inr ⟨Bool.of_not_eq_true hi, rfl⟩⟩
  · by_cases hi : pyAnyDict st.items
    · cases hmi : addCountsToCsv itemNameColumn itemCountColumn w.itemsCsv st.items with
      | error e =>
        rw [writeNewTrades_eq_none_err st w e (Bool.of_not_eq_true hw) hi hmi] at h
        cases h
      | ok outi =>
        rw [writeNewTrades_eq_none_ok st w outi (Bool.of_not_eq_true hw) hi hmi]
        exact ⟨Or.inr ⟨Bool.of_not_eq_true hw, rfl⟩, Or.inl ⟨hi, rfl⟩⟩
    · rw [writeNewTrades_eq_none_none st w (Bool.of_not_eq_true hw) (Bool.of_not_eq_true hi)]
      exact ⟨Or.inr ⟨Bool.of_not_eq_true hw, rfl⟩, Or.inr ⟨Bool.of_not_eq_true hi, rfl⟩⟩

theorem merged_csv_sum (nc cc : Nat) (hlt : nc < cc) (csv csv2 : List (List String))
    (d : List (String × Nat)) (hnd : (dkeys d).Nodup)
    (hkeys : ∀ p ∈ d, p.1 ≠ "")
    (hspec : (pyAnyDict d = true ∧ addCountsToCsv nc cc csv d = .ok csv2) ∨
      (pyAnyDict d = false ∧ csv2 = csv)) :
    csvSum cc csv2 = csvSum cc csv + ((dsum d : Nat) : Int) ∧
    ∀ k, keyTotal nc cc csv2 k = keyTotal nc cc csv k + ((dGetD d k : Nat) : Int) := by
  rcases hspec with ⟨hany, hok⟩ | ⟨hany, heq⟩
  · exact ⟨addCountsToCsv_csvSum nc cc hlt csv d csv2 hnd hok,
      fun k => addCountsToCsv_keyTotal nc cc (by omega) csv d csv2 k hnd hok⟩
  · have hd : d = [] := pyAnyDict_eq_false d hkeys hany
    subst hd
    subst heq
    constructor
    · simp [dsum]
    · intro k
      simp [dGetD, dlookup]

/-- A successful run increases the grand count total across both tabular
files by exactly the number of events it extracted, and each subject's
total in its category's file by exactly that subject's occurrence count
(the per-run category of a subject being its pattern class, since each
run's dicts start empty). -/
theorem run_accounting (w : World) (h0 : History)
    (hl : loadHistory w.historyFile = some h0)
    (hok : (runInventory w).err = none)
    (hitems : ∀ s ∈ itemsOf (runEvents w h0), s ≠ "") :
    (runInventory w).newTrades = (runEvents w h0).length ∧
    csvTotal (runInventory w).world = csvTotal w + ((runEvents w h0).length : Int) ∧
    ∀ s : String,
      (matchesWordPattern s = true →
        keyTotal wordNameColumn wordCountColumn (runInventory w).world.wordsCsv s =
          keyTotal wordNameColumn wordCountColumn w.wordsCsv s +
            (((itemsOf (runEvents w h0)).count s : Nat) : Int)) ∧
      (matchesWordPattern s = false →
        keyTotal itemNameColumn itemCountColumn (runInventory w).world.itemsCsv s =
          keyTotal itemNameColumn itemCountColumn w.itemsCsv s +
            (((itemsOf (runEvents w h0)).count s : Nat) : Int)) := by
  have hr := runInventory_eq w h0 hl
  have hst1 : (updateScan ⟨h0, [], []⟩ w.logs).1 =
      (runEvents w h0).foldl processTradePair ⟨h0, [], []⟩ := by
    rw [updateScan_eq]
    rfl
  have hn2 : (updateScan ⟨h0, [], []⟩ w.logs).2 = (runEvents w h0).length := by
    rw [updateScan_eq]
    rfl
  have herr : (writeNewTrades
      ((runEvents w h0).foldl processTradePair ⟨h0, [], []⟩) w).2 = none := by
    rw [← hst1]
    rw [hr] at hok
    exact hok
  have hcounts := fun s => run_counts (runEvents w h0) ⟨h0, [], []⟩ rfl rfl s
  have hnp := foldl_nodup_pos (runEvents w h0) ⟨h0, [], []⟩
    (by simp [dkeys]) (by simp [dkeys]) (by simp) (by simp)
  have hkeysW : ∀ p ∈ ((runEvents w h0).foldl processTradePair ⟨h0, [], []⟩).words,
      p.1 ≠ "" := by
    intro p hp
    exact hitems p.1
      (run_keys_mem _ _ rfl rfl p.1 (Or.inl (List.mem_map.mpr ⟨p, hp, rfl⟩)))
  have hkeysI : ∀ p ∈ ((runEvents w h0).foldl processTradePair ⟨h0, [], []⟩).items,
      p.1 ≠ "" := by
    intro p hp
    exact hitems p.1
      (run_keys_mem _ _ rfl rfl p.1 (Or.inr (List.mem_map.mpr ⟨p, hp, rfl⟩)))
  have hspec := writeNewTrades_none_spec
    ((runEvents w h0).foldl processTradePair ⟨h0, [], []⟩) w herr
  have hwordsFacts := merged_csv_sum wordNameColumn wordCountColumn (by decide)
    w.wordsCsv
    ((writeNewTrades ((runEvents w h0).foldl processTradePair ⟨h0, [], []⟩) w).1.wordsCsv)
    ((runEvents w h0).foldl processTradePair ⟨h0, [], []⟩).words
    hnp.1 hkeysW hspec.1
  have hitemsFacts := merged_csv_sum itemNameColumn itemCountColumn (by decide)
    w.itemsCsv
    ((writeNewTrades ((runEvents w h0).foldl processTradePair ⟨h0, [], []⟩) w).1.itemsCsv)
    ((runEvents w h0).foldl processTradePair ⟨h0, [], []⟩).items
    hnp.2.1 hkeysI hspec.2
  have hdsum2 : dsum ((runEvents w h0).foldl processTradePair ⟨h0, [], []⟩).words +
      dsum ((runEvents w h0).foldl processTradePair ⟨h0, [], []⟩).items =
      (runEvents w h0).length := by
    have := foldl_dsum (runEvents w h0) ⟨h0, [], []⟩
    simpa [dsum] using this
  refine ⟨?_, ?_, ?_⟩
  · rw [hr]
    exact hn2
  · rw [hr]
    show csvTotal (writeNewTrades (updateScan ⟨h0, [], []⟩ w.logs).1 w).1 = _
    rw [hst1, csvTotal, csvTotal, hwordsFacts.1, hitemsFacts.1]
    push_cast
    omega
  · intro s
    constructor
    · intro hps
      rw [hr]
      show keyTotal wordNameColumn wordCountColumn
        (writeNewTrades (updateScan ⟨h0, [], []⟩ w.logs).1 w).1.wordsCsv s = _
      rw [hst1, hwordsFacts.2 s]
      have hc := (hcounts s).1
      rw [hc, if_pos hps]
    · intro hps
      rw [hr]
      show keyTotal itemNameColumn itemCountColumn
        (writeNewTrades (updateScan ⟨h0, [], []⟩ w.logs).1 w).1.itemsCsv s = _
      rw [hst1, hitemsFacts.2 s]
      have hc := (hcounts s).2
      rw [hc, if_neg (by rw [hps]; exact Bool.false_ne_true)]

/-- C1: counterexample to the claim as stated.  One trade line at time 1
is scanned; between the runs one further trade line, also at time 1, is
appended to the same log.  The claim demands a total count increase of 1
after run 2, but the appended line's timestamp equals the persisted
cutoff (`line_time > last_time` is strict, and the cutoff is the last
recorded timestamp), so run 2 extracts nothing and both tabular files are
unchanged. -/
theorem c1_counterexample :
    (runInventory (appendedWorld
        [⟨some 1, some ⟨"P", "Sword"⟩⟩] [⟨some 1, some ⟨"Q", "Dagger"⟩⟩]
        none [] [["a", "b", "c"]])).err = none ∧
    ([⟨some 1, some ⟨"Q", "Dagger"⟩⟩] : List LogLine).length = 1 ∧
    (runInventory (appendedWorld
        [⟨some 1, some ⟨"P", "Sword"⟩⟩] [⟨some 1, some ⟨"Q", "Dagger"⟩⟩]
        none [] [["a", "b", "c"]])).newTrades = 0 ∧
    csvTotal (runInventory (appendedWorld
        [⟨some 1, some ⟨"P", "Sword"⟩⟩] [⟨some 1, some ⟨"Q", "Dagger"⟩⟩]
        none [] [["a", "b", "c"]])).world =
      csvTotal (afterRun1 [⟨some 1, some ⟨"P", "Sword"⟩⟩] none [] [["a", "b", "c"]]) := by
  decide

/-- C1 (amended): for trade lines `A` appended between two runs, the
accounting of the claim holds provided every appended line's timestamp is
strictly beyond the persisted cutoff of run 1 and no pre-existing line is
beyond that cutoff.  Then run 2 extracts exactly `A.length` events, the
grand count total across both tabular files grows by `A.length`, and each
subject's total in its category's file grows by its occurrence count
among the appended lines. -/
theorem c1_amended (lines A : List LogLine) (hf : Option (Option History))
    (wcsv icsv : List (List String))
    (hload : hf ≠ some none)
    (hA : ∀ l ∈ A, ∃ t tr, l.ts = some t ∧ l.trade = some tr ∧ tr.item ≠ "")
    (hfreshA : ∀ t ∈ tradeTss A, histFileLast (afterRun1 lines hf wcsv icsv) < t)
    (holdLines : ∀ t ∈ tradeTss lines, t ≤ histFileLast (afterRun1 lines hf wcsv icsv))
    (hok : (runInventory (appendedWorld lines A hf wcsv icsv)).err = none) :
    (runInventory (appendedWorld lines A hf wcsv icsv)).newTrades = A.length ∧
    csvTotal (runInventory (appendedWorld lines A hf wcsv icsv)).world =
      csvTotal (afterRun1 lines hf wcsv icsv) + (A.length : Int) ∧
    ∀ s : String,
      (matchesWordPattern s = true →
        keyTotal wordNameColumn wordCountColumn
            (runInventory (appendedWorld lines A hf wcsv icsv)).world.wordsCsv s =
          keyTotal wordNameColumn wordCountColumn
            (afterRun1 lines hf wcsv icsv).wordsCsv s + ((occCount s A : Nat) : Int)) ∧
      (matchesWordPattern s = false →
        keyTotal itemNameColumn itemCountColumn
            (runInventory (appendedWorld lines A hf wcsv icsv)).world.itemsCsv s =
          keyTotal itemNameColumn itemCountColumn
            (afterRun1 lines hf wcsv icsv).itemsCsv s + ((occCount s A : Nat) : Int)) := by
  obtain ⟨h0, hl0⟩ : ∃ h0, loadHistory hf = some h0 := by
    match hf with
    | none => exact ⟨History.init, rfl⟩
    | some none => exact absurd rfl hload
    | some (some hx) => exact ⟨hx, rfl⟩
  have hw1 : afterRun1 lines hf wcsv icsv =
      (writeNewTrades
        (updateScan ⟨h0, [], []⟩ (singleLogWorld lines hf wcsv icsv).logs).1
        (singleLogWorld lines hf wcsv icsv)).1 := by
    rw [afterRun1, runInventory_eq (singleLogWorld lines hf wcsv icsv) h0 hl0]
  obtain ⟨hh, hhf⟩ : ∃ hh, (afterRun1 lines hf wcsv icsv).historyFile = some (some hh) :=
    ⟨_, by rw [hw1]; exact writeNewTrades_historyFile _ _⟩
  have hl2 : loadHistory (appendedWorld lines A hf wcsv icsv).historyFile = some hh := by
    have heq : (appendedWorld lines A hf wcsv icsv).historyFile =
        (afterRun1 lines hf wcsv icsv).historyFile := rfl
    rw [heq, hhf]
    rfl
  have hFL : histFileLast (afterRun1 lines hf wcsv icsv) = histLast hh := by
    simp [histFileLast, hhf]
  have hall : allLines (appendedWorld lines A hf wcsv icsv).logs = lines ++ A := by
    simp [appendedWorld, allLines]
  have hevs : runEvents (appendedWorld lines A hf wcsv icsv) hh =
      newEvents (histLast hh) A := by
    rw [runEvents, hall, newEvents_append,
      newEvents_eq_nil _ lines (fun t ht => hFL ▸ holdLines t ht), List.nil_append]
  have hA2 : ∀ l ∈ A, ∃ t tr, l.ts = some t ∧ l.trade = some tr := by
    intro l hl
    obtain ⟨t, tr, h1, h2, _⟩ := hA l hl
    exact ⟨t, tr, h1, h2⟩
  have hnew : ∀ t ∈ tradeTss A, histLast hh < t := fun t ht => hFL ▸ hfreshA t ht
  have nevA := newEvents_all (histLast hh) A hA2 hnew
  have hitems2 : ∀ s ∈ itemsOf (runEvents (appendedWorld lines A hf wcsv icsv) hh),
      s ≠ "" := by
    intro s hs
    rw [hevs, nevA.2.1] at hs
    obtain ⟨l, hl, hls⟩ := List.mem_filterMap.mp hs
    obtain ⟨t, tr, h1, h2, h3⟩ := hA l hl
    rw [h2] at hls
    simp only [Option.map_some'] at hls
    injection hls with hls
    rw [← hls]
    exact h3
  have main := run_accounting (appendedWorld lines A hf wcsv icsv) hh hl2 hok hitems2
  have hlen : (runEvents (appendedWorld lines A hf wcsv icsv) hh).length = A.length := by
    rw [hevs]
    exact nevA.1
  have hcsvT : csvTotal (appendedWorld lines A hf wcsv icsv) =
      csvTotal (afterRun1 lines hf wcsv icsv) := rfl
  have hcnt : ∀ s : String,
      (itemsOf (runEvents (appendedWorld lines A hf wcsv icsv) hh)).count s =
        occCount s A := by
    intro s
    rw [hevs, nevA.2.1]
    rfl
  refine ⟨?_, ?_, ?_⟩
  · rw [main.1, hlen]
  · rw [main.2.1, hcsvT, hlen]
  · intro s
    constructor
    · intro hps
      rw [(main.2.2 s).1 hps, hcnt s]
      rfl
    · intro hps
      rw [(main.2.2 s).2 hps, hcnt s]
      rfl

/-- C1 witness: one pre-existing trade line at time 1 and one appended
trade line at time 2 (subject "Sword", no pattern match, nonempty name,
strictly beyond the cutoff); the second run succeeds and the amended
accounting holds at this input. -/
theorem c1_witness :
    (runInventory (appendedWorld
        [⟨some 1, some ⟨"P", "Sword"⟩⟩] [⟨some 2, some ⟨"Q", "Sword"⟩⟩]
        none [] [["a", "b", "c"]])).newTrades =
      ([⟨some 2, some ⟨"Q", "Sword"⟩⟩] : List LogLine).length ∧
    csvTotal (runInventory (appendedWorld
        [⟨some 1, some ⟨"P", "Sword"⟩⟩] [⟨some 2, some ⟨"Q", "Sword"⟩⟩]
        none [] [["a", "b", "c"]])).world =
      csvTotal (afterRun1 [⟨some 1, some ⟨"P", "Sword"⟩⟩] none [] [["a", "b", "c"]]) +
        (([⟨some 2, some ⟨"Q", "Sword"⟩⟩] : List LogLine).length : Int) ∧
    ∀ s : String,
      (matchesWordPattern s = true →
        keyTotal wordNameColumn wordCountColumn
            (runInventory (appendedWorld
              [⟨some 1, some ⟨"P", "Sword"⟩⟩] [⟨some 2, some ⟨"Q", "Sword"⟩⟩]
              none [] [["a", "b", "c"]])).world.wordsCsv s =
          keyTotal wordNameColumn wordCountColumn
            (afterRun1 [⟨some 1, some ⟨"P", "Sword"⟩⟩] none [] [["a", "b", "c"]]).wordsCsv s +
            ((occCount s [⟨some 2, some ⟨"Q", "Sword"⟩⟩] : Nat) : Int)) ∧
      (matchesWordPattern s = false →
        keyTotal itemNameColumn itemCountColumn
            (runInventory (appendedWorld
              [⟨some 1, some ⟨"P", "Sword"⟩⟩] [⟨some 2, some ⟨"Q", "Sword"⟩⟩]
              none [] [["a", "b", "c"]])).world.itemsCsv s =
          keyTotal itemNameColumn itemCountColumn
            (afterRun1 [⟨some 1, some ⟨"P", "Sword"⟩⟩] none [] [["a", "b", "c"]]).itemsCsv s +
            ((occCount s [⟨some 2, some ⟨"Q", "Sword"⟩⟩] : Nat) : Int)) :=
  c1_amended [⟨some 1, some ⟨"P", "Sword"⟩⟩] [⟨some 2, some ⟨"Q", "Sword"⟩⟩]
    none [] [["a", "b", "c"]]
    (by simp)
    (by
      intro l hl
      rw [List.mem_singleton] at hl
      subst hl
      exact ⟨2, ⟨"Q", "Sword"⟩, rfl, rfl, by decide⟩)
    (by decide)
    (by decide)
    (by decide)
